import Mathlib

/-!
Shallow embedding of the special-relativity physics core of the `worldline`
repository (src/special/transform.rs, inertial_frame.rs, worldline.rs,
universe.rs, src/shared/numerical_integration.rs and the retarded-time
observation solver of src/app_state/state.rs), over exact real arithmetic.
f64 values are modelled as real numbers; the `as u32` cast of a nonnegative
float is modelled as the natural-number floor (saturating at 0 for negative
inputs, as in Rust); `f64::rem_euclid` is modelled as `a - b * ⌊a / b⌋`.
The `while` loop of `bake_events` and the mutual recursion between
`insert_event` and `bake_events` are modelled with an explicit fuel
parameter, returning `none` when the fuel is exhausted.
-/

namespace SR

noncomputable section

/-- Model of `cgmath::Vector3<f64>`. -/
@[ext] structure Vector3 where
  x : ℝ
  y : ℝ
  z : ℝ

/-- Model of `cgmath::Vector4<f64>` (spatial x, y, z plus time component w). -/
@[ext] structure Vector4 where
  x : ℝ
  y : ℝ
  z : ℝ
  w : ℝ

instance : Zero Vector3 := ⟨⟨0, 0, 0⟩⟩

instance : Add Vector3 := ⟨fun a b => ⟨a.x + b.x, a.y + b.y, a.z + b.z⟩⟩

instance : Neg Vector3 := ⟨fun a => ⟨-a.x, -a.y, -a.z⟩⟩

instance : Sub Vector3 := ⟨fun a b => ⟨a.x - b.x, a.y - b.y, a.z - b.z⟩⟩

instance : SMul ℝ Vector3 := ⟨fun c a => ⟨c * a.x, c * a.y, c * a.z⟩⟩

instance : Zero Vector4 := ⟨⟨0, 0, 0, 0⟩⟩

instance : Add Vector4 := ⟨fun a b => ⟨a.x + b.x, a.y + b.y, a.z + b.z, a.w + b.w⟩⟩

instance : Neg Vector4 := ⟨fun a => ⟨-a.x, -a.y, -a.z, -a.w⟩⟩

instance : Sub Vector4 := ⟨fun a b => ⟨a.x - b.x, a.y - b.y, a.z - b.z, a.w - b.w⟩⟩

instance : SMul ℝ Vector4 := ⟨fun c a => ⟨c * a.x, c * a.y, c * a.z, c * a.w⟩⟩

@[simp] theorem Vector3.zero_x : (0 : Vector3).x = 0 := rfl

@[simp] theorem Vector3.zero_y : (0 : Vector3).y = 0 := rfl

@[simp] theorem Vector3.zero_z : (0 : Vector3).z = 0 := rfl

@[simp] theorem Vector3.add_x (a b : Vector3) : (a + b).x = a.x + b.x := rfl

@[simp] theorem Vector3.add_y (a b : Vector3) : (a + b).y = a.y + b.y := rfl

@[simp] theorem Vector3.add_z (a b : Vector3) : (a + b).z = a.z + b.z := rfl

@[simp] theorem Vector3.neg_x (a : Vector3) : (-a).x = -a.x := rfl

@[simp] theorem Vector3.neg_y (a : Vector3) : (-a).y = -a.y := rfl

@[simp] theorem Vector3.neg_z (a : Vector3) : (-a).z = -a.z := rfl

@[simp] theorem Vector3.sub_x (a b : Vector3) : (a - b).x = a.x - b.x := rfl

@[simp] theorem Vector3.sub_y (a b : Vector3) : (a - b).y = a.y - b.y := rfl

@[simp] theorem Vector3.sub_z (a b : Vector3) : (a - b).z = a.z - b.z := rfl

@[simp] theorem Vector3.smul_x (c : ℝ) (a : Vector3) : (c • a).x = c * a.x := rfl

@[simp] theorem Vector3.smul_y (c : ℝ) (a : Vector3) : (c • a).y = c * a.y := rfl

@[simp] theorem Vector3.smul_z (c : ℝ) (a : Vector3) : (c • a).z = c * a.z := rfl

@[simp] theorem Vector4.zero_x4 : (0 : Vector4).x = 0 := rfl

@[simp] theorem Vector4.zero_y4 : (0 : Vector4).y = 0 := rfl

@[simp] theorem Vector4.zero_z4 : (0 : Vector4).z = 0 := rfl

@[simp] theorem Vector4.zero_w : (0 : Vector4).w = 0 := rfl

@[simp] theorem Vector4.add_x4 (a b : Vector4) : (a + b).x = a.x + b.x := rfl

@[simp] theorem Vector4.add_y4 (a b : Vector4) : (a + b).y = a.y + b.y := rfl

@[simp] theorem Vector4.add_z4 (a b : Vector4) : (a + b).z = a.z + b.z := rfl

@[simp] theorem Vector4.add_w (a b : Vector4) : (a + b).w = a.w + b.w := rfl

@[simp] theorem Vector4.neg_x4 (a : Vector4) : (-a).x = -a.x := rfl

@[simp] theorem Vector4.neg_y4 (a : Vector4) : (-a).y = -a.y := rfl

@[simp] theorem Vector4.neg_z4 (a : Vector4) : (-a).z = -a.z := rfl

@[simp] theorem Vector4.neg_w (a : Vector4) : (-a).w = -a.w := rfl

@[simp] theorem Vector4.sub_x4 (a b : Vector4) : (a - b).x = a.x - b.x := rfl

@[simp] theorem Vector4.sub_y4 (a b : Vector4) : (a - b).y = a.y - b.y := rfl

@[simp] theorem Vector4.sub_z4 (a b : Vector4) : (a - b).z = a.z - b.z := rfl

@[simp] theorem Vector4.sub_w (a b : Vector4) : (a - b).w = a.w - b.w := rfl

@[simp] theorem Vector4.smul_x4 (c : ℝ) (a : Vector4) : (c • a).x = c * a.x := rfl

@[simp] theorem Vector4.smul_y4 (c : ℝ) (a : Vector4) : (c • a).y = c * a.y := rfl

@[simp] theorem Vector4.smul_z4 (c : ℝ) (a : Vector4) : (c • a).z = c * a.z := rfl

@[simp] theorem Vector4.smul_w (c : ℝ) (a : Vector4) : (c • a).w = c * a.w := rfl

@[simp] theorem Vector3.mk_add_mk (a b c d e f : ℝ) :
    (⟨a, b, c⟩ : Vector3) + ⟨d, e, f⟩ = ⟨a + d, b + e, c + f⟩ := rfl

@[simp] theorem Vector3.mk_sub_mk (a b c d e f : ℝ) :
    (⟨a, b, c⟩ : Vector3) - ⟨d, e, f⟩ = ⟨a - d, b - e, c - f⟩ := rfl

@[simp] theorem Vector3.mk_neg (a b c : ℝ) :
    -(⟨a, b, c⟩ : Vector3) = ⟨-a, -b, -c⟩ := rfl

@[simp] theorem Vector3.mk_smul (r a b c : ℝ) :
    r • (⟨a, b, c⟩ : Vector3) = ⟨r * a, r * b, r * c⟩ := rfl

@[simp] theorem Vector4.mk_add_mk4 (a b c d a' b' c' d' : ℝ) :
    (⟨a, b, c, d⟩ : Vector4) + ⟨a', b', c', d'⟩ = ⟨a + a', b + b', c + c', d + d'⟩ := rfl

@[simp] theorem Vector4.mk_sub_mk4 (a b c d a' b' c' d' : ℝ) :
    (⟨a, b, c, d⟩ : Vector4) - ⟨a', b', c', d'⟩ = ⟨a - a', b - b', c - c', d - d'⟩ := rfl

@[simp] theorem Vector4.mk_neg4 (a b c d : ℝ) :
    -(⟨a, b, c, d⟩ : Vector4) = ⟨-a, -b, -c, -d⟩ := rfl

@[simp] theorem Vector4.mk_smul4 (r a b c d : ℝ) :
    r • (⟨a, b, c, d⟩ : Vector4) = ⟨r * a, r * b, r * c, r * d⟩ := rfl

/-- Model of `cgmath::InnerSpace::magnitude2` (squared Euclidean norm). -/
def Vector3.magnitude2 (v : Vector3) : ℝ := v.x * v.x + v.y * v.y + v.z * v.z

/-- Model of `cgmath::InnerSpace::magnitude`. -/
def Vector3.magnitude (v : Vector3) : ℝ := Real.sqrt v.magnitude2

/-- Model of `cgmath::InnerSpace::normalize_to`: rescale `v` to length `m`. -/
def Vector3.normalize_to (v : Vector3) (m : ℝ) : Vector3 :=
  (m / v.magnitude) • v

/-- Model of `Vector3::extend`: append a fourth (time) component. -/
def Vector3.extend (v : Vector3) (w : ℝ) : Vector4 := ⟨v.x, v.y, v.z, w⟩

/-- Model of `Vector4::truncate`: drop the time component. -/
def Vector4.truncate (v : Vector4) : Vector3 := ⟨v.x, v.y, v.z⟩

@[simp] theorem Vector3.extend_x (v : Vector3) (w : ℝ) : (v.extend w).x = v.x := rfl

@[simp] theorem Vector3.extend_y (v : Vector3) (w : ℝ) : (v.extend w).y = v.y := rfl

@[simp] theorem Vector3.extend_z (v : Vector3) (w : ℝ) : (v.extend w).z = v.z := rfl

@[simp] theorem Vector3.extend_w (v : Vector3) (w : ℝ) : (v.extend w).w = w := rfl

@[simp] theorem Vector4.truncate_x (v : Vector4) : v.truncate.x = v.x := rfl

@[simp] theorem Vector4.truncate_y (v : Vector4) : v.truncate.y = v.y := rfl

@[simp] theorem Vector4.truncate_z (v : Vector4) : v.truncate.z = v.z := rfl

/-- Model of `cgmath::Matrix3<f64>`, stored as its three columns. -/
@[ext] structure Matrix3 where
  cx : Vector3
  cy : Vector3
  cz : Vector3

/-- Model of `cgmath::Matrix4<f64>`, stored as its four columns. -/
@[ext] structure Matrix4 where
  cx : Vector4
  cy : Vector4
  cz : Vector4
  cw : Vector4

/-- Model of `Matrix3::from_cols`. -/
def Matrix3.from_cols (a b c : Vector3) : Matrix3 := ⟨a, b, c⟩

/-- Model of `Matrix4::from_cols`. -/
def Matrix4.from_cols (a b c d : Vector4) : Matrix4 := ⟨a, b, c, d⟩

/-- Model of `Matrix3::identity`. -/
def Matrix3.identity : Matrix3 := ⟨⟨1, 0, 0⟩, ⟨0, 1, 0⟩, ⟨0, 0, 1⟩⟩

/-- Model of `Matrix4::identity`. -/
def Matrix4.identity : Matrix4 := ⟨⟨1, 0, 0, 0⟩, ⟨0, 1, 0, 0⟩, ⟨0, 0, 1, 0⟩, ⟨0, 0, 0, 1⟩⟩

/-- Matrix-vector product for the column representation. -/
def Matrix3.mulVec (m : Matrix3) (v : Vector3) : Vector3 :=
  v.x • m.cx + v.y • m.cy + v.z • m.cz

/-- Matrix-vector product `M * u` for the column representation. -/
def Matrix4.mulVec (m : Matrix4) (v : Vector4) : Vector4 :=
  v.x • m.cx + v.y • m.cy + v.z • m.cz + v.w • m.cw

instance : Mul Matrix3 :=
  ⟨fun a b => ⟨a.mulVec b.cx, a.mulVec b.cy, a.mulVec b.cz⟩⟩

instance : Add Matrix3 := ⟨fun a b => ⟨a.cx + b.cx, a.cy + b.cy, a.cz + b.cz⟩⟩

instance : SMul ℝ Matrix3 := ⟨fun c a => ⟨c • a.cx, c • a.cy, c • a.cz⟩⟩

/-- Model of `Matrix::transpose` for `Matrix3`. -/
def Matrix3.transpose (m : Matrix3) : Matrix3 :=
  ⟨⟨m.cx.x, m.cy.x, m.cz.x⟩, ⟨m.cx.y, m.cy.y, m.cz.y⟩, ⟨m.cx.z, m.cy.z, m.cz.z⟩⟩

/-- Scalar division of a matrix, modelling `matrix / speed2`. -/
def Matrix3.sdiv (m : Matrix3) (s : ℝ) : Matrix3 :=
  ⟨(1 / s) • m.cx, (1 / s) • m.cy, (1 / s) • m.cz⟩

/-! Constants from src/special/worldline.rs. -/

/-- `PHYS_TIME_STEP` from worldline.rs: `1.0 / 240.0`. -/
def PHYS_TIME_STEP : ℝ := 1 / 240

/-- `EVENT_BAKE_INTERVAL` from worldline.rs: `1.0`. -/
def EVENT_BAKE_INTERVAL : ℝ := 1

/-- `MAX_SPEED` from worldline.rs: `0.99999999999`. -/
def MAX_SPEED : ℝ := 99999999999 / 100000000000

/-! Lorentz kinematics from src/special/transform.rs. -/

/-- `lorentz_factor(v) = 1 / sqrt(1 - |v|^2)` from transform.rs. -/
def lorentz_factor (velocity : Vector3) : ℝ :=
  1 / Real.sqrt (1 - velocity.magnitude2)

/-- `lorentz_boost` from transform.rs. The float degeneracy test
`speed2.is_zero() || speed2.next_down().is_zero()` is modelled as the exact
test `speed2 = 0` (in exact reals `next_down` has no counterpart; the source
branch exists to avoid dividing by a denormal-or-zero `speed2`). -/
def lorentz_boost (velocity : Vector3) : Matrix4 :=
  let gamma := lorentz_factor velocity
  let speed2 := velocity.magnitude2
  if speed2 = 0 then Matrix4.identity
  else
    let velocity_matrix := Matrix3.from_cols velocity 0 0
    let space_matrix := Matrix3.identity +
      (((gamma - 1) • (velocity_matrix * velocity_matrix.transpose)).sdiv speed2)
    Matrix4.from_cols
      (space_matrix.cx.extend (-gamma * velocity.x))
      (space_matrix.cy.extend (-gamma * velocity.y))
      (space_matrix.cz.extend (-gamma * velocity.z))
      ((-gamma) • (velocity.extend (-1)))

/-- `velocity_3_to_4` from transform.rs. -/
def velocity_3_to_4 (velocity : Vector3) : Vector4 :=
  lorentz_factor velocity • velocity.extend 1

/-- `velocity_4_to_3` from transform.rs. -/
def velocity_4_to_3 (velocity : Vector4) : Vector3 :=
  (1 / velocity.w) • velocity.truncate

/-- `transform_3_velocity` from transform.rs. -/
def transform_3_velocity (transform : Matrix4) (velocity : Vector3) : Vector3 :=
  velocity_4_to_3 (transform.mulVec (velocity_3_to_4 velocity))

/-- `add_velocities` from transform.rs: relativistic velocity addition. -/
def add_velocities (velocity_gun velocity_bullet : Vector3) : Vector3 :=
  transform_3_velocity (lorentz_boost (-velocity_gun)) velocity_bullet

/-! Runge-Kutta integration from src/shared/numerical_integration.rs. -/

/-- `runge_kutta_step` from numerical_integration.rs, polymorphic over the
integrated value exactly as the Rust generic is; scalar multiplication on the
right in the source is written as `•` on the left. -/
def runge_kutta_step {T : Type} [Add T] [SMul ℝ T] (initial_value : T)
    (initial_time time_step : ℝ) (derivative : ℝ → T → T) : T :=
  let k_1 := derivative initial_time initial_value
  let k_2 := derivative (initial_time + time_step / 2) (initial_value + (time_step / 2) • k_1)
  let k_3 := derivative (initial_time + time_step / 2) (initial_value + (time_step / 2) • k_2)
  let k_4 := derivative (initial_time + time_step) (initial_value + time_step • k_3)
  initial_value + (time_step / 6) • (k_1 + (2 : ℝ) • k_2 + (2 : ℝ) • k_3 + k_4)

/-! Inertial frames from src/special/inertial_frame.rs. -/

/-- `InertialFrame` from inertial_frame.rs. -/
@[ext] structure InertialFrame where
  position : Vector4
  velocity : Vector3

/-- `InertialFrame::default`: origin position, zero velocity. -/
def InertialFrame.default_frame : InertialFrame := ⟨⟨0, 0, 0, 0⟩, ⟨0, 0, 0⟩⟩

/-- `InertialFrame::relative_to` from inertial_frame.rs. -/
def InertialFrame.relative_to (self other : InertialFrame) : InertialFrame :=
  let transform := lorentz_boost other.velocity
  ⟨transform.mulVec (self.position - other.position),
   transform_3_velocity transform self.velocity⟩

/-- `InertialFrame::predict` from inertial_frame.rs: linear extrapolation. -/
def InertialFrame.predict (self : InertialFrame) (delta_time : ℝ) : InertialFrame :=
  ⟨self.position + delta_time • (self.velocity.extend 1), self.velocity⟩

/-- The velocity-derivative closure built at the top of `InertialFrame::step`:
`accel_4 = lorentz_boost(-velocity) * proper_accel.extend(0)` and
`dv = (1 - |v|^2) * (accel_4.truncate() - v * accel_4.w)`. Hoisted out of
`step` as a named definition (the source binds it as a local closure). -/
def step_velocity_derivative (fr : InertialFrame) (proper_accel : Vector3) :
    ℝ → Vector3 → Vector3 :=
  let accel_4 := (lorentz_boost (-fr.velocity)).mulVec (proper_accel.extend 0)
  fun _ velocity => (1 - velocity.magnitude2) • (accel_4.truncate - accel_4.w • velocity)

/-- `InertialFrame::step` from inertial_frame.rs: one constant-proper-acceleration
RK4 step. Returns the updated frame together with the elapsed proper time
(the Rust method mutates `self` and returns the proper time; the source's
`old_velocity` snapshot is simply the pre-step `self.velocity` here since the
model is pure). -/
def InertialFrame.step (self : InertialFrame) (delta_time : ℝ)
    (proper_accel : Vector3) : InertialFrame × ℝ :=
  let velocity_derivative := step_velocity_derivative self proper_accel
  let new_velocity := runge_kutta_step self.velocity 0 delta_time velocity_derivative
  let clamped_velocity :=
    if new_velocity.magnitude2 > MAX_SPEED * MAX_SPEED then
      new_velocity.normalize_to MAX_SPEED
    else new_velocity
  let new_position :=
    (runge_kutta_step self.position.truncate 0 delta_time fun time _ =>
      runge_kutta_step self.velocity 0 time velocity_derivative).extend
      (self.position.w + delta_time)
  let proper_elapsed :=
    runge_kutta_step (0 : ℝ) 0 delta_time fun time _ =>
      1 / lorentz_factor (runge_kutta_step self.velocity 0 time velocity_derivative)
  (⟨new_position, clamped_velocity⟩, proper_elapsed)

/-- The unclamped RK4 velocity update inside `InertialFrame::step`. -/
def step_raw_velocity (fr : InertialFrame) (delta_time : ℝ)
    (proper_accel : Vector3) : Vector3 :=
  runge_kutta_step fr.velocity 0 delta_time (step_velocity_derivative fr proper_accel)

theorem step_velocity_eq (fr : InertialFrame) (h : ℝ) (a : Vector3) :
    (fr.step h a).1.velocity =
      if (step_raw_velocity fr h a).magnitude2 > MAX_SPEED * MAX_SPEED then
        (step_raw_velocity fr h a).normalize_to MAX_SPEED
      else step_raw_velocity fr h a := rfl

theorem step_position_w (fr : InertialFrame) (h : ℝ) (a : Vector3) :
    (fr.step h a).1.position.w = fr.position.w + h := rfl

/-! Worldlines from src/special/worldline.rs. -/

/-- `WorldlineEventKind` from worldline.rs. -/
inductive WorldlineEventKind
  | inertial
  | acceleration (proper_accel : Vector3)

/-- `WorldlineEventKind::is_inertial` (from the `IsVariant` derive). -/
def WorldlineEventKind.is_inertial : WorldlineEventKind → Bool
  | .inertial => true
  | .acceleration _ => false

/-- `WorldlineEvent` from worldline.rs. -/
structure WorldlineEvent where
  frame : InertialFrame
  proper_time : ℝ
  kind : WorldlineEventKind

/-- The event built in the `(None, None)` branch of `get_event_at_time`:
default frame, zero proper time, `Inertial` kind. -/
def default_event : WorldlineEvent := ⟨InertialFrame.default_frame, 0, .inertial⟩

/-- Coordinate time of an event: `event.frame.position.w`. -/
def WorldlineEvent.time (e : WorldlineEvent) : ℝ := e.frame.position.w

/-- Model of `f64::rem_euclid` for a positive modulus: `a - b * ⌊a / b⌋`. -/
def rem_euclid (a b : ℝ) : ℝ := a - b * ⌊a / b⌋

/-- The list of RK4 step sizes used by the `Acceleration` branch of
`WorldlineEvent::get_event_at_time_offset`: the loop body runs
`(offset / resolution) as u32 + 1` times, every iteration except the last
with step `time_resolution` and the last with `offset.rem_euclid(step_size)`.
The `as u32` cast of the nonnegative float is modelled as `Int.toNat ∘ ⌊·⌋`
(saturating at 0 for a negative operand, as the Rust cast does). -/
def accel_step_sizes (coord_time_offset time_resolution : ℝ) : List ℝ :=
  List.replicate (⌊coord_time_offset / time_resolution⌋.toNat) time_resolution ++
    [rem_euclid coord_time_offset time_resolution]

/-- The accumulation loop of the `Acceleration` branch of
`get_event_at_time_offset`: repeatedly step the frame, summing proper time. -/
def run_accel_steps (proper_accel : Vector3) :
    InertialFrame × ℝ → List ℝ → InertialFrame × ℝ
  | state, [] => state
  | (frame, proper_time), step_size :: rest =>
      let stepped := frame.step step_size proper_accel
      run_accel_steps proper_accel (stepped.1, proper_time + stepped.2) rest

/-- `WorldlineEvent::get_event_at_time_offset` from worldline.rs. -/
def WorldlineEvent.get_event_at_time_offset (self : WorldlineEvent)
    (coord_time_offset time_resolution : ℝ) : WorldlineEvent :=
  match self.kind with
  | .inertial =>
      ⟨self.frame.predict coord_time_offset,
       self.proper_time + coord_time_offset / lorentz_factor self.frame.velocity,
       self.kind⟩
  | .acceleration proper_accel =>
      let result := run_accel_steps proper_accel (self.frame, self.proper_time)
        (accel_step_sizes coord_time_offset time_resolution)
      ⟨result.1, result.2, self.kind⟩

/-- `Worldline` from worldline.rs; the `VecDeque` is modelled as a list with
its front at the head (`push_back` appends at the end). -/
structure Worldline where
  events : List WorldlineEvent
  time_resolution : ℝ

/-- `Worldline::new` from worldline.rs. -/
def Worldline.new (start_frame : InertialFrame) : Worldline :=
  ⟨[⟨start_frame, 0, .inertial⟩], PHYS_TIME_STEP⟩

/-- Model of `VecDeque::partition_point(|event| event.time < coord_time)`:
on a sequence partitioned by the predicate (here: sorted by time) the Rust
binary search returns the length of the satisfying prefix, which is what
this linear version computes. -/
def partition_point (coord_time : ℝ) : List WorldlineEvent → ℕ
  | [] => 0
  | e :: rest =>
      if e.time < coord_time then partition_point coord_time rest + 1 else 0

/-- `Worldline::get_neighbor_event_indices` from worldline.rs. -/
def Worldline.get_neighbor_event_indices (self : Worldline) (coord_time : ℝ) :
    Option ℕ × Option ℕ :=
  if self.events.isEmpty then (none, none)
  else if (self.events.getLastD default_event).time < coord_time then
    (some (self.events.length - 1), none)
  else
    let after_index := partition_point coord_time self.events
    (if after_index = 0 then none else some (after_index - 1), some after_index)

/-- `Worldline::get_event_at_time` from worldline.rs. -/
def Worldline.get_event_at_time (self : Worldline) (coord_time : ℝ) : WorldlineEvent :=
  match self.get_neighbor_event_indices coord_time with
  | (none, none) => default_event
  | (none, some index_after) =>
      let base := self.events.getD index_after default_event
      let fake_inertial : WorldlineEvent := ⟨base.frame, base.proper_time, .inertial⟩
      fake_inertial.get_event_at_time_offset (coord_time - fake_inertial.time)
        self.time_resolution
  | (some index_before, _) =>
      let before := self.events.getD index_before default_event
      before.get_event_at_time_offset (coord_time - before.time) self.time_resolution

mutual

/-- `Worldline::insert_event` from worldline.rs, parametrised by the bake
interval constant and by fuel for the mutual recursion with `bake_events`
(`none` means the fuel ran out before the Rust loop would have finished). -/
def insert_event_fuel : ℕ → ℝ → ℝ → WorldlineEventKind → Worldline → Option Worldline
  | 0, _, _, _, _ => none
  | fuel + 1, interval, coord_time, kind, self => do
      let baked ← bake_events_fuel fuel interval coord_time self
      let drained : Worldline :=
        match (baked.get_neighbor_event_indices coord_time).2 with
        | some index_after => ⟨baked.events.take index_after, baked.time_resolution⟩
        | none => baked
      let event := drained.get_event_at_time coord_time
      some ⟨drained.events ++ [⟨event.frame, event.proper_time, kind⟩],
        drained.time_resolution⟩

/-- `Worldline::bake_events` from worldline.rs, parametrised by the bake
interval constant (`EVENT_BAKE_INTERVAL` in the source) and by fuel. -/
def bake_events_fuel : ℕ → ℝ → ℝ → Worldline → Option Worldline
  | 0, _, _, _ => none
  | fuel + 1, interval, coord_time, self =>
      match self.get_neighbor_event_indices coord_time with
      | (_, some _) => some self
      | (none, none) => some self
      | (some index_before, none) =>
          let event := self.events.getD index_before default_event
          if event.kind.is_inertial then some self
          else
            let bake_step := interval * (self.time_resolution / PHYS_TIME_STEP)
            bake_loop_fuel fuel interval bake_step (event.time + bake_step) coord_time
              event.kind self

/-- The `while bake_coord_time < coord_time` loop of `Worldline::bake_events`.
`bake_step` is the loop increment `EVENT_BAKE_INTERVAL * multiplier`,
computed once before the loop as in the source. -/
def bake_loop_fuel : ℕ → ℝ → ℝ → ℝ → ℝ → WorldlineEventKind → Worldline → Option Worldline
  | 0, _, _, _, _, _, _ => none
  | fuel + 1, interval, bake_step, bake_coord_time, coord_time, kind, self =>
      if bake_coord_time < coord_time then do
        let inserted ← insert_event_fuel fuel interval bake_coord_time kind self
        bake_loop_fuel fuel interval bake_step (bake_coord_time + bake_step) coord_time
          kind inserted
      else some self

end

/-- `Worldline::insert_event` with the source's constant `EVENT_BAKE_INTERVAL`. -/
def Worldline.insert_event (fuel : ℕ) (self : Worldline) (coord_time : ℝ)
    (kind : WorldlineEventKind) : Option Worldline :=
  insert_event_fuel fuel EVENT_BAKE_INTERVAL coord_time kind self

/-- `Worldline::bake_events` with the source's constant `EVENT_BAKE_INTERVAL`. -/
def Worldline.bake_events (fuel : ℕ) (self : Worldline) (coord_time : ℝ) :
    Option Worldline :=
  bake_events_fuel fuel EVENT_BAKE_INTERVAL coord_time self

/-! The universe from src/special/universe.rs. Rendering metadata on
`Entity` (model name, matrix, color) is irrelevant to the physics core and
omitted; `EntityId(u128)` is modelled as a natural number. -/

/-- `Entity` from universe.rs (physics-relevant part). -/
structure Entity where
  worldline : Worldline

/-- `Universe` from universe.rs; the `BTreeMap` is modelled as an
association list. -/
structure Universe where
  entities : List (ℕ × Entity)
  user_entity_id : ℕ
  time : ℝ

/-- `Universe::get_user_entity`; the source `unwrap`s, modelled as `Option`. -/
def Universe.get_user_entity (self : Universe) : Option Entity :=
  self.entities.lookup self.user_entity_id

/-- `Universe::user_event_now` from universe.rs. -/
def Universe.user_event_now (self : Universe) : Option WorldlineEvent :=
  self.get_user_entity.map fun e => e.worldline.get_event_at_time self.time

/-- `Universe::step` from universe.rs: advance the clock by
`delta * user_gamma`, then for every entity set `time_resolution` and bake
up to the new time. -/
def Universe.step (fuel : ℕ) (self : Universe) (delta : ℝ) : Option Universe := do
  let user_event ← self.user_event_now
  let user_gamma := lorentz_factor user_event.frame.velocity
  let new_time := self.time + delta * user_gamma
  let new_entities ← self.entities.mapM fun p => do
    let wl : Worldline := ⟨p.2.worldline.events, PHYS_TIME_STEP * user_gamma⟩
    let baked ← wl.bake_events fuel new_time
    some (p.1, Entity.mk baked)
  some ⟨new_entities, self.user_entity_id, new_time⟩

/-! The retarded-time observation solver from
`State::update_entity_model_instances` in src/app_state/state.rs. -/

/-- The solver's loop state: current estimated event plus the previous
iteration's residual and step (`prev_offset` / `prev_change`). -/
structure ObserveState where
  estimated_event : WorldlineEvent
  prev_offset : Option ℝ
  prev_change : Option ℝ

/-- The residual of one solver iteration:
`(universe.time - event.time) - travel_time`. -/
def observe_offset (universe_time : ℝ) (user_frame : InertialFrame)
    (e : WorldlineEvent) : ℝ :=
  (universe_time - e.frame.position.w) -
    (e.frame.position - user_frame.position).truncate.magnitude

/-- The query-time adjustment of one solver iteration: secant step when a
previous iteration exists, otherwise `offset / relative_gamma`. -/
def observe_change (universe_time : ℝ) (user_frame : InertialFrame)
    (s : ObserveState) : ℝ :=
  let offset := observe_offset universe_time user_frame s.estimated_event
  match s.prev_offset, s.prev_change with
  | some prev_offset, some prev_change =>
      let derivative := (prev_offset - offset) / prev_change
      offset / derivative
  | _, _ =>
      let relative_frame := s.estimated_event.frame.relative_to user_frame
      offset / lorentz_factor relative_frame.velocity

/-- One un-guarded solver iteration: apply the adjustment and re-query the
worldline, recording this iteration's residual and step. -/
def observe_next (wl : Worldline) (universe_time : ℝ) (user_frame : InertialFrame)
    (s : ObserveState) : ObserveState :=
  let offset := observe_offset universe_time user_frame s.estimated_event
  let change := observe_change universe_time user_frame s
  ⟨wl.get_event_at_time (s.estimated_event.frame.position.w + change),
    some offset, some change⟩

/-- The `for _ in 0..30` retarded-time loop with its early `break` on
`offset.abs() < 0.001`, as a fuel recursion. -/
def observe_loop (wl : Worldline) (universe_time : ℝ) (user_frame : InertialFrame) :
    ℕ → ObserveState → WorldlineEvent
  | 0, s => s.estimated_event
  | n + 1, s =>
      if |observe_offset universe_time user_frame s.estimated_event| < 1 / 1000 then
        s.estimated_event
      else
        observe_loop wl universe_time user_frame n
          (observe_next wl universe_time user_frame s)

/-- The full lightspeed-delay computation of
`State::update_entity_model_instances`: start from the naive query at the
universe time and run at most 30 damped-Newton iterations. -/
def lightspeed_delayed_event (wl : Worldline) (universe_time : ℝ)
    (user_frame : InertialFrame) : WorldlineEvent :=
  observe_loop wl universe_time user_frame 30 ⟨wl.get_event_at_time universe_time, none, none⟩

/-! Well-formedness of worldlines (the documented invariant of the event
sequence) and basic facts about `partition_point`. -/

/-- Strictly increasing coordinate times along an event list. -/
def sorted_events (l : List WorldlineEvent) : Prop :=
  l.Pairwise fun a b => a.time < b.time

/-- The documented worldline invariant: nonempty and sorted event sequence,
with a positive integration resolution. -/
def Worldline.WF (w : Worldline) : Prop :=
  w.events ≠ [] ∧ sorted_events w.events ∧ 0 < w.time_resolution

theorem getLastD_mem_cons : ∀ (l : List WorldlineEvent) (a : WorldlineEvent),
    (a :: l).getLastD default_event ∈ a :: l
  | [], _ => by simp
  | b :: l, a => by
      rw [List.getLastD_cons]
      exact List.mem_cons_of_mem a (getLastD_mem_cons l b)

theorem partition_point_cons_lt_aux {a : WorldlineEvent} {t : ℝ} (h : a.time < t)
    (l : List WorldlineEvent) :
    partition_point t (a :: l) = partition_point t l + 1 := by
  simp [partition_point, h]

theorem partition_point_cons_ge_aux {a : WorldlineEvent} {t : ℝ} (h : ¬ a.time < t)
    (l : List WorldlineEvent) :
    partition_point t (a :: l) = 0 := by
  simp [partition_point, h]

theorem partition_point_le_length (t : ℝ) :
    ∀ l : List WorldlineEvent, partition_point t l ≤ l.length
  | [] => le_refl 0
  | e :: rest => by
      by_cases h : e.time < t
      · simpa [partition_point, h] using partition_point_le_length t rest
      · simp [partition_point, h]

theorem partition_point_of_all_lt (t : ℝ) :
    ∀ l : List WorldlineEvent, (∀ e ∈ l, e.time < t) → partition_point t l = l.length
  | [], _ => rfl
  | e :: rest, h => by
      have he : e.time < t := h e (by simp)
      simp [partition_point, he, partition_point_of_all_lt t rest fun x hx => h x (by simp [hx])]

theorem partition_point_append_all_lt (t : ℝ) (l₁ l₂ : List WorldlineEvent)
    (h : ∀ e ∈ l₁, e.time < t) :
    partition_point t (l₁ ++ l₂) = l₁.length + partition_point t l₂ := by
  induction l₁ with
  | nil => simp
  | cons e rest ih =>
      have he : e.time < t := h e (by simp)
      have := ih fun x hx => h x (by simp [hx])
      simp [partition_point, he, this]
      omega

theorem partition_point_append_stop (t : ℝ) (l₁ l₂ : List WorldlineEvent)
    (h : ∃ e ∈ l₁, ¬ e.time < t) :
    partition_point t (l₁ ++ l₂) = partition_point t l₁ := by
  induction l₁ with
  | nil => simp at h
  | cons e rest ih =>
      by_cases he : e.time < t
      · obtain ⟨x, hx, hxt⟩ := h
        rcases List.mem_cons.mp hx with rfl | hx'
        · exact absurd he hxt
        · simp [partition_point, he, ih ⟨x, hx', hxt⟩]
      · simp [partition_point, he]

/-- Elements of the prefix selected by `partition_point` satisfy the
predicate. -/
theorem mem_take_partition_point_lt (t : ℝ) :
    ∀ (l : List WorldlineEvent), ∀ e ∈ l.take (partition_point t l), e.time < t
  | [], e, he => by simp at he
  | a :: rest, e, he => by
      by_cases ha : a.time < t
      · rw [partition_point_cons_lt_aux ha] at he
        rcases List.mem_cons.mp (by simpa using he) with rfl | h'
        · exact ha
        · exact mem_take_partition_point_lt t rest e h'
      · rw [partition_point_cons_ge_aux ha] at he
        simp at he

theorem not_isEmpty_of_ne_nil {l : List WorldlineEvent} (h : l ≠ []) :
    l.isEmpty = false := by
  cases l with
  | nil => exact absurd rfl h
  | cons a rest => rfl

/-- Below (or at) the first event's time, the neighbor search reports no
predecessor and successor index 0. -/
theorem get_neighbor_before_first {W : Worldline} {t : ℝ} (hne : W.events ≠ [])
    (hs : sorted_events W.events)
    (ht : t ≤ (W.events.headD default_event).time) :
    W.get_neighbor_event_indices t = (none, some 0) := by
  obtain ⟨a, rest, hEq⟩ := List.exists_cons_of_ne_nil hne
  have hhead : (W.events.headD default_event) = a := by rw [hEq]; rfl
  have hmem : W.events.getLastD default_event ∈ W.events := by
    rw [hEq]; exact getLastD_mem_cons rest a
  have hle : a.time ≤ (W.events.getLastD default_event).time := by
    rw [hEq] at hmem hs
    rcases List.mem_cons.mp hmem with h | h
    · rw [hEq, h]
    · rw [hEq]
      exact le_of_lt ((List.pairwise_cons.mp hs).1 _ h)
  have hlast : ¬ (W.events.getLastD default_event).time < t := by
    rw [hhead] at ht
    exact not_lt.mpr (le_trans ht hle)
  have hpp : partition_point t W.events = 0 := by
    rw [hEq]
    exact partition_point_cons_ge_aux (not_lt.mpr (hhead ▸ ht)) rest
  have hlast' : ¬ (W.events.getLast?.getD default_event).time < t := by
    rw [← List.getLastD_eq_getLast?]
    exact hlast
  simp [Worldline.get_neighbor_event_indices, not_isEmpty_of_ne_nil hne, hlast, hlast', hpp]

/-- C10: for a well-formed worldline, `insert_event` at a coordinate time at
or before the first stored event's time deletes every stored event and leaves
exactly one event with the default inertial frame (origin position, zero
velocity, hence recorded coordinate time 0 regardless of the requested time),
proper time 0 and the requested kind. -/
theorem claim_C10_insert_before_first_resets (W : Worldline) (t : ℝ)
    (k : WorldlineEventKind) (fuel : ℕ) (hne : W.events ≠ [])
    (hs : sorted_events W.events)
    (ht : t ≤ (W.events.headD default_event).time) :
    W.insert_event (fuel + 2) t k =
      some ⟨[⟨InertialFrame.default_frame, 0, k⟩], W.time_resolution⟩ := by
  have hnb := get_neighbor_before_first hne hs ht
  have hbake : bake_events_fuel (fuel + 1) EVENT_BAKE_INTERVAL t W = some W := by
    simp [bake_events_fuel, hnb]
  have hq : Worldline.get_event_at_time ⟨[], W.time_resolution⟩ t = default_event := by
    simp [Worldline.get_event_at_time, Worldline.get_neighbor_event_indices]
  simp [Worldline.insert_event, insert_event_fuel, hbake, hnb, hq, default_event]

/-- Witness for C10: a concrete worldline seeded at x = 5, inserted at
time −1 with an acceleration command. -/
theorem claim_C10_witness :
    Worldline.insert_event 2 ⟨[⟨⟨⟨5, 0, 0, 0⟩, ⟨0, 0, 0⟩⟩, 0, .inertial⟩], 1⟩ (-1)
      (.acceleration ⟨1, 0, 0⟩) =
      some ⟨[⟨InertialFrame.default_frame, 0, .acceleration ⟨1, 0, 0⟩⟩], 1⟩ := by
  have h := claim_C10_insert_before_first_resets
    ⟨[⟨⟨⟨5, 0, 0, 0⟩, ⟨0, 0, 0⟩⟩, 0, .inertial⟩], 1⟩ (-1) (.acceleration ⟨1, 0, 0⟩) 0
    (by simp) (by simp [sorted_events])
    (by norm_num [WorldlineEvent.time, List.headD])
  simpa using h

/-! Claim C4: the speed-of-light invariant after `InertialFrame::step`.
Speeds are compared in squared form: `|v| < MAX_SPEED` iff
`|v|^2 < MAX_SPEED * MAX_SPEED` since both sides are nonnegative. -/

theorem magnitude2_nonneg (v : Vector3) : 0 ≤ v.magnitude2 :=
  add_nonneg (add_nonneg (mul_self_nonneg _) (mul_self_nonneg _)) (mul_self_nonneg _)

theorem magnitude2_smul (c : ℝ) (v : Vector3) :
    (c • v).magnitude2 = c ^ 2 * v.magnitude2 := by
  simp [Vector3.magnitude2]
  ring

theorem magnitude2_normalize_to (v : Vector3) (L : ℝ) (h : 0 < v.magnitude2) :
    (v.normalize_to L).magnitude2 = L * L := by
  rw [Vector3.normalize_to, magnitude2_smul, div_pow, Vector3.magnitude,
    Real.sq_sqrt (le_of_lt h)]
  field_simp
  ring

/-- The clamp at the end of `InertialFrame::step` bounds the squared speed by
`MAX_SPEED^2`, with no hypothesis on the incoming frame. -/
theorem step_velocity_magnitude2_le (fr : InertialFrame) (h : ℝ) (a : Vector3) :
    ((fr.step h a).1.velocity).magnitude2 ≤ MAX_SPEED * MAX_SPEED := by
  rw [step_velocity_eq]
  by_cases hc : (step_raw_velocity fr h a).magnitude2 > MAX_SPEED * MAX_SPEED
  · rw [if_pos hc, magnitude2_normalize_to]
    · have : (0 : ℝ) < MAX_SPEED * MAX_SPEED := by norm_num [MAX_SPEED]
      exact lt_trans this hc
  · rw [if_neg hc]
    exact not_lt.mp hc

/-- C4 (amended): after `step`, the squared speed is at most
`MAX_SPEED * MAX_SPEED` — the invariant holds with `≤`, not with the strict
`<` of the claim, because the clamp rescales an overshooting velocity to
magnitude exactly `MAX_SPEED` (see the counterexample). -/
theorem claim_C4_speed_clamped (fr : InertialFrame) (h : ℝ) (a : Vector3)
    (_hv : fr.velocity.magnitude2 < MAX_SPEED * MAX_SPEED) :
    ((fr.step h a).1.velocity).magnitude2 ≤ MAX_SPEED * MAX_SPEED :=
  step_velocity_magnitude2_le fr h a

/-- Witness for C4 at the default frame with zero acceleration. -/
theorem claim_C4_witness :
    (InertialFrame.default_frame.velocity.magnitude2 < MAX_SPEED * MAX_SPEED) ∧
      ((InertialFrame.default_frame.step 1 ⟨0, 0, 0⟩).1.velocity).magnitude2 ≤
        MAX_SPEED * MAX_SPEED :=
  ⟨by norm_num [InertialFrame.default_frame, Vector3.magnitude2, MAX_SPEED],
   claim_C4_speed_clamped InertialFrame.default_frame 1 ⟨0, 0, 0⟩
     (by norm_num [InertialFrame.default_frame, Vector3.magnitude2, MAX_SPEED])⟩

theorem c4_boost_zero : lorentz_boost (-(⟨0, 0, 0⟩ : Vector3)) = Matrix4.identity := by
  norm_num [lorentz_boost, Vector3.magnitude2]

theorem c4_raw_velocity_eval :
    step_raw_velocity InertialFrame.default_frame 1 ⟨3, 0, 0⟩ =
      ⟨-(767835 / 24576), 0, 0⟩ := by
  rw [step_raw_velocity, step_velocity_derivative]
  rw [show InertialFrame.default_frame.velocity = (⟨0, 0, 0⟩ : Vector3) from rfl,
    c4_boost_zero]
  simp [runge_kutta_step, Matrix4.identity, Matrix4.mulVec, Vector3.extend,
    Vector4.truncate, Vector3.magnitude2]
  norm_num

/-- C4 counterexample: from the default (at-rest) frame, whose speed satisfies
the strict invariant, one `step` with `delta_time = 1` and proper acceleration
`(3, 0, 0)` makes the RK4 update overshoot; the clamp rescales it to magnitude
exactly `MAX_SPEED`, so the strict bound `|v| < MAX_SPEED` is violated after
the step. -/
theorem claim_C4_counterexample :
    ¬ (((InertialFrame.default_frame.step 1 ⟨3, 0, 0⟩).1.velocity).magnitude2 <
        MAX_SPEED * MAX_SPEED) := by
  have hgt : ((⟨-(767835 / 24576), 0, 0⟩ : Vector3)).magnitude2 >
      MAX_SPEED * MAX_SPEED := by
    norm_num [Vector3.magnitude2, MAX_SPEED]
  have hv : (InertialFrame.default_frame.step 1 ⟨3, 0, 0⟩).1.velocity =
      Vector3.normalize_to ⟨-(767835 / 24576), 0, 0⟩ MAX_SPEED := by
    rw [step_velocity_eq, c4_raw_velocity_eval, if_pos hgt]
  rw [hv, magnitude2_normalize_to]
  · exact lt_irrefl _
  · norm_num [Vector3.magnitude2]

/-! Claim C9: relativistic velocity addition. -/

theorem Matrix3.mul_def (a b : Matrix3) :
    a * b = ⟨a.mulVec b.cx, a.mulVec b.cy, a.mulVec b.cz⟩ := rfl

theorem Matrix3.add_def (a b : Matrix3) :
    a + b = ⟨a.cx + b.cx, a.cy + b.cy, a.cz + b.cz⟩ := rfl

theorem Matrix3.smul_def (c : ℝ) (a : Matrix3) :
    c • a = ⟨c • a.cx, c • a.cy, c • a.cz⟩ := rfl

theorem magnitude2_neg (v : Vector3) : (-v).magnitude2 = v.magnitude2 := by
  simp [Vector3.magnitude2]

theorem eq_zero_of_magnitude2_eq_zero {v : Vector3} (h : v.magnitude2 = 0) :
    v = ⟨0, 0, 0⟩ := by
  rw [Vector3.magnitude2] at h
  have hx : v.x * v.x = 0 := by
    nlinarith [mul_self_nonneg v.x, mul_self_nonneg v.y, mul_self_nonneg v.z]
  have hy : v.y * v.y = 0 := by
    nlinarith [mul_self_nonneg v.x, mul_self_nonneg v.y, mul_self_nonneg v.z]
  have hz : v.z * v.z = 0 := by
    nlinarith [mul_self_nonneg v.x, mul_self_nonneg v.y, mul_self_nonneg v.z]
  ext
  · exact mul_self_eq_zero.mp hx
  · exact mul_self_eq_zero.mp hy
  · exact mul_self_eq_zero.mp hz

theorem lorentz_factor_pos {v : Vector3} (h : v.magnitude2 < 1) :
    0 < lorentz_factor v := by
  rw [lorentz_factor]
  have hs : 0 < Real.sqrt (1 - v.magnitude2) := Real.sqrt_pos.mpr (by linarith)
  positivity

theorem lorentz_factor_sq {v : Vector3} (h : v.magnitude2 < 1) :
    lorentz_factor v ^ 2 * (1 - v.magnitude2) = 1 := by
  rw [lorentz_factor, div_pow, one_pow, Real.sq_sqrt (by linarith)]
  have : 1 - v.magnitude2 ≠ 0 := by linarith
  field_simp

theorem mulVec_identity (u : Vector4) : Matrix4.identity.mulVec u = u := by
  apply Vector4.ext <;> simp [Matrix4.identity, Matrix4.mulVec]

/-- The Minkowski quadratic form `|spatial|^2 - t^2` of a 4-vector, written
componentwise. -/
def interval_form (u : Vector4) : ℝ :=
  u.x * u.x + u.y * u.y + u.z * u.z - u.w * u.w

set_option maxHeartbeats 2000000 in
/-- The boost matrix built by `lorentz_boost` preserves the Minkowski
quadratic form (for a subluminal boost velocity). -/
theorem boost_preserves_interval (v : Vector3) (u : Vector4)
    (hv : v.magnitude2 < 1) :
    interval_form ((lorentz_boost v).mulVec u) = interval_form u := by
  by_cases h0 : v.magnitude2 = 0
  · rw [lorentz_boost]
    simp only [h0, if_pos]
    rw [mulVec_identity]
  · have hγ := lorentz_factor_sq hv
    simp only [lorentz_boost]
    rw [if_neg h0]
    rw [Vector3.magnitude2] at hγ h0
    simp only [Matrix4.from_cols, Matrix4.mulVec, Matrix3.from_cols, Matrix3.mul_def,
      Matrix3.add_def, Matrix3.smul_def, Matrix3.sdiv, Matrix3.identity,
      Matrix3.transpose, Matrix3.mulVec, Vector3.magnitude2, interval_form,
      Vector3.extend_x, Vector3.extend_y, Vector3.extend_z, Vector3.extend_w,
      Vector4.add_x4, Vector4.add_y4, Vector4.add_z4, Vector4.add_w,
      Vector4.smul_x4, Vector4.smul_y4, Vector4.smul_z4, Vector4.smul_w,
      Vector3.add_x, Vector3.add_y, Vector3.add_z,
      Vector3.smul_x, Vector3.smul_y, Vector3.smul_z,
      Vector3.zero_x, Vector3.zero_y, Vector3.zero_z]
    have h0' : v.x * v.x + v.y * v.y + v.z * v.z ≠ 0 := h0
    field_simp
    linear_combination (((v.x * u.x + v.y * u.y + v.z * u.z) ^ 2 -
        u.w * u.w * (v.x * v.x + v.y * v.y + v.z * v.z)) *
        (v.x * v.x + v.y * v.y + v.z * v.z)) * hγ

theorem velocity_3_to_4_zero : velocity_3_to_4 ⟨0, 0, 0⟩ = ⟨0, 0, 0, 1⟩ := by
  have hγ0 : lorentz_factor ⟨0, 0, 0⟩ = 1 := by
    norm_num [lorentz_factor, Vector3.magnitude2]
  simp [velocity_3_to_4, hγ0, Vector3.extend]

theorem mulVec_unit_w (M : Matrix4) : M.mulVec ⟨0, 0, 0, 1⟩ = M.cw := by
  apply Vector4.ext <;> simp [Matrix4.mulVec]

/-- Zero is a right identity of `add_velocities` for subluminal `v`. -/
theorem add_velocities_zero (v : Vector3) (hv : v.magnitude2 < 1) :
    add_velocities v ⟨0, 0, 0⟩ = v := by
  rw [add_velocities, transform_3_velocity, velocity_3_to_4_zero, mulVec_unit_w]
  by_cases h0 : (-v).magnitude2 = 0
  · have hv0 : v = ⟨0, 0, 0⟩ :=
      eq_zero_of_magnitude2_eq_zero (by rw [← magnitude2_neg]; exact h0)
    subst hv0
    rw [lorentz_boost]
    simp only [h0, if_pos]
    simp [Matrix4.identity, velocity_4_to_3, Vector4.truncate]
  · have hg : 0 < lorentz_factor (-v) :=
      lorentz_factor_pos (by rw [magnitude2_neg]; exact hv)
    have hgne : lorentz_factor (-v) ≠ 0 := ne_of_gt hg
    simp only [lorentz_boost]
    rw [if_neg h0]
    simp only [Matrix4.from_cols]
    rw [velocity_4_to_3]
    apply Vector3.ext <;> simp [Vector4.truncate, Vector3.extend] <;> field_simp

/-- Composition of two subluminal velocities is subluminal: proved via
preservation of the Minkowski form of the 4-velocity under the boost. -/
theorem add_velocities_magnitude2_lt_one (v_a v_b : Vector3)
    (ha : v_a.magnitude2 < 1) (hb : v_b.magnitude2 < 1) :
    (add_velocities v_a v_b).magnitude2 < 1 := by
  have hbneg : (-v_a).magnitude2 < 1 := by rw [magnitude2_neg]; exact ha
  set u := velocity_3_to_4 v_b with hu
  set y := (lorentz_boost (-v_a)).mulVec u with hy
  have hQu : interval_form u = -1 := by
    have hγb := lorentz_factor_sq hb
    rw [Vector3.magnitude2] at hγb
    rw [hu, velocity_3_to_4, interval_form]
    simp [Vector3.extend]
    linear_combination (-1 : ℝ) * hγb
  have hQy : interval_form y = -1 := by
    rw [hy, boost_preserves_interval _ _ hbneg, hQu]
  have hw2 : y.w * y.w = 1 + (y.x * y.x + y.y * y.y + y.z * y.z) := by
    rw [interval_form] at hQy
    linarith
  have hwpos : 0 < y.w * y.w := by
    nlinarith [mul_self_nonneg y.x, mul_self_nonneg y.y, mul_self_nonneg y.z]
  have hwne : y.w ≠ 0 := fun h => by rw [h] at hwpos; simp at hwpos
  rw [add_velocities, transform_3_velocity, ← hu, ← hy, velocity_4_to_3, magnitude2_smul]
  have htr : (y.truncate).magnitude2 = y.x * y.x + y.y * y.y + y.z * y.z := by
    simp [Vector4.truncate, Vector3.magnitude2]
  rw [htr]
  have hS : y.x * y.x + y.y * y.y + y.z * y.z = y.w * y.w - 1 := by linarith
  rw [hS]
  have hrw : (1 / y.w) ^ 2 * (y.w * y.w - 1) = 1 - 1 / (y.w * y.w) := by
    rw [div_pow, one_pow, pow_two, div_mul_eq_mul_div, one_mul, sub_div,
      div_self (ne_of_gt hwpos)]
  rw [hrw]
  have hpos : 0 < 1 / (y.w * y.w) := by positivity
  linarith

/-- C9: for all subluminal 3-velocities, `add_velocities(v, 0) = v` (zero is a
right identity) and `add_velocities(v_a, v_b)` is again subluminal (squared
magnitude strictly below 1). -/
theorem claim_C9_velocity_addition (v v_a v_b : Vector3) (hv : v.magnitude2 < 1)
    (ha : v_a.magnitude2 < 1) (hb : v_b.magnitude2 < 1) :
    add_velocities v ⟨0, 0, 0⟩ = v ∧ (add_velocities v_a v_b).magnitude2 < 1 :=
  ⟨add_velocities_zero v hv, add_velocities_magnitude2_lt_one v_a v_b ha hb⟩

/-- Witness for C9 at concrete subluminal velocities. -/
theorem claim_C9_witness :
    add_velocities ⟨1 / 2, 0, 0⟩ ⟨0, 0, 0⟩ = ⟨1 / 2, 0, 0⟩ ∧
      (add_velocities ⟨1 / 2, 0, 0⟩ ⟨1 / 3, 0, 0⟩).magnitude2 < 1 :=
  claim_C9_velocity_addition ⟨1 / 2, 0, 0⟩ ⟨1 / 2, 0, 0⟩ ⟨1 / 3, 0, 0⟩
    (by norm_num [Vector3.magnitude2]) (by norm_num [Vector3.magnitude2])
    (by norm_num [Vector3.magnitude2])

/-! Claim C7: the retarded-time solver's iteration budget. -/

/-- The fueled solver loop runs some number `k ≤ fuel` of un-guarded
iterations: it stops at the first iterate whose residual is below the
tolerance, and if no iterate within the budget converges it still returns the
final estimate. -/
theorem observe_loop_spec (wl : Worldline) (t : ℝ) (uf : InertialFrame) :
    ∀ (n : ℕ) (s : ObserveState),
      ∃ k, k ≤ n ∧
        observe_loop wl t uf n s = ((observe_next wl t uf)^[k] s).estimated_event ∧
        (∀ j < k, ¬ |observe_offset t uf
          (((observe_next wl t uf)^[j] s).estimated_event)| < 1 / 1000) ∧
        (k < n → |observe_offset t uf
          (((observe_next wl t uf)^[k] s).estimated_event)| < 1 / 1000)
  | 0, s =>
      ⟨0, le_refl 0, rfl, fun j hj => absurd hj (Nat.not_lt_zero j),
        fun h => absurd h (lt_irrefl 0)⟩
  | n + 1, s => by
      by_cases hc : |observe_offset t uf s.estimated_event| < 1 / 1000
      · exact ⟨0, Nat.zero_le _, by rw [observe_loop, if_pos hc]; simp,
          fun j hj => absurd hj (Nat.not_lt_zero j), fun _ => by simpa using hc⟩
      · obtain ⟨k, hk, heq, hprev, hconv⟩ :=
          observe_loop_spec wl t uf n (observe_next wl t uf s)
        refine ⟨k + 1, by omega, ?_, ?_, ?_⟩
        · rw [observe_loop, if_neg hc, heq, Function.iterate_succ_apply]
        · intro j hj
          cases j with
          | zero => simpa using hc
          | succ j' =>
              rw [Function.iterate_succ_apply]
              exact hprev j' (by omega)
        · intro hlt
          rw [Function.iterate_succ_apply]
          exact hconv (by omega)

/-- C7: for every observer frame, universe time and target worldline the
retarded-time computation is total and equals the k-th un-guarded solver
iterate for some k ≤ 30, where k is the first index whose residual satisfies
`|offset| < 0.001` if one exists within the budget (early exit), and
otherwise k = 30 (the last estimate is accepted without signalling
anything). -/
theorem claim_C7_solver_budget (wl : Worldline) (t : ℝ) (uf : InertialFrame) :
    ∃ k, k ≤ 30 ∧
      lightspeed_delayed_event wl t uf =
        ((observe_next wl t uf)^[k]
          ⟨wl.get_event_at_time t, none, none⟩).estimated_event ∧
      (∀ j < k, ¬ |observe_offset t uf (((observe_next wl t uf)^[j]
          ⟨wl.get_event_at_time t, none, none⟩).estimated_event)| < 1 / 1000) ∧
      (k < 30 → |observe_offset t uf (((observe_next wl t uf)^[k]
          ⟨wl.get_event_at_time t, none, none⟩).estimated_event)| < 1 / 1000) :=
  observe_loop_spec wl t uf 30 ⟨wl.get_event_at_time t, none, none⟩

/-! Claim C3: the three-regime query policy of `get_event_at_time`. -/

/-- An `if`-free restatement of `get_neighbor_event_indices` for nonempty
event lists, convenient for case analysis. -/
theorem get_neighbor_eval (W : Worldline) (t : ℝ) (hne : W.events ≠ []) :
    W.get_neighbor_event_indices t =
      if (W.events.getLastD default_event).time < t then
        (some (W.events.length - 1), none)
      else
        (if partition_point t W.events = 0 then none
         else some (partition_point t W.events - 1),
         some (partition_point t W.events)) := by
  rw [Worldline.get_neighbor_event_indices,
    if_neg (by simp [not_isEmpty_of_ne_nil hne])]

theorem getLastD_indep : ∀ (l : List WorldlineEvent) (b d d' : WorldlineEvent),
    (b :: l).getLastD d = (b :: l).getLastD d'
  | [], _, _, _ => rfl
  | c :: l, b, d, d' => by
      have h1 : (b :: c :: l).getLastD d = (c :: l).getLastD b := List.getLastD_cons ..
      have h2 : (b :: c :: l).getLastD d' = (c :: l).getLastD b := List.getLastD_cons ..
      rw [h1, h2]

theorem getLastD_cons_cons (a b : WorldlineEvent) (l : List WorldlineEvent)
    (d : WorldlineEvent) :
    (a :: b :: l).getLastD d = (b :: l).getLastD d := by
  have h1 : (a :: b :: l).getLastD d = (b :: l).getLastD a := List.getLastD_cons ..
  rw [h1]
  exact getLastD_indep l b a d

theorem getD_pred_length_eq_getLastD :
    ∀ (l : List WorldlineEvent), l ≠ [] →
      l.getD (l.length - 1) default_event = l.getLastD default_event
  | [a], _ => rfl
  | a :: b :: l, _ => by
      have ih := getD_pred_length_eq_getLastD (b :: l) (by simp)
      have hlen : (a :: b :: l).length - 1 = (b :: l).length := by simp
      rw [hlen, getLastD_cons_cons]
      have : (a :: b :: l).getD (b :: l).length default_event =
          (b :: l).getD ((b :: l).length - 1) default_event := by
        have : (b :: l).length = (l.length + 1) := by simp
        rw [this]
        rfl
      rw [this, ih]

/-- Exactly the three-regime policy as the claim words it: backward-inertial
strictly before the first event, forward from the last event at or after its
time, and the bracketing earlier event (the latest event strictly before `t`,
which for a sorted list sits at index `partition_point t - 1`) otherwise. -/
def claimed_three_regime (W : Worldline) (t : ℝ) : WorldlineEvent :=
  let first := W.events.headD default_event
  let last := W.events.getLastD default_event
  if t < first.time then
    (⟨first.frame, first.proper_time, .inertial⟩ : WorldlineEvent).get_event_at_time_offset
      (t - first.time) W.time_resolution
  else if last.time ≤ t then
    last.get_event_at_time_offset (t - last.time) W.time_resolution
  else
    let before := W.events.getD (partition_point t W.events - 1) default_event
    before.get_event_at_time_offset (t - before.time) W.time_resolution

/-- The three-regime policy with the boundaries the code actually implements:
the backward-inertial regime applies at or before the first event's time, the
open-ended forward regime strictly after the last event's time, and at
`t` equal to the last event's time the bracketing rule applies. -/
def amended_three_regime (W : Worldline) (t : ℝ) : WorldlineEvent :=
  let first := W.events.headD default_event
  let last := W.events.getLastD default_event
  if t ≤ first.time then
    (⟨first.frame, first.proper_time, .inertial⟩ : WorldlineEvent).get_event_at_time_offset
      (t - first.time) W.time_resolution
  else if last.time < t then
    last.get_event_at_time_offset (t - last.time) W.time_resolution
  else
    let before := W.events.getD (partition_point t W.events - 1) default_event
    before.get_event_at_time_offset (t - before.time) W.time_resolution

/-- Characterization of `get_event_at_time` by the three regimes with the
boundaries the code implements (shared helper behind claim C3). -/
theorem get_event_at_time_regimes (W : Worldline) (t : ℝ) (hne : W.events ≠ [])
    (hs : sorted_events W.events) :
    W.get_event_at_time t = amended_three_regime W t := by
  obtain ⟨a, rest, hEq⟩ := List.exists_cons_of_ne_nil hne
  by_cases h1 : t ≤ (W.events.headD default_event).time
  · have hnb := get_neighbor_before_first hne hs h1
    have hbase : W.events.getD 0 default_event = W.events.headD default_event := by
      rw [hEq]; rfl
    simp only [Worldline.get_event_at_time, hnb, amended_three_regime, if_pos h1, hbase]
    rfl
  · push_neg at h1
    by_cases h2 : (W.events.getLastD default_event).time < t
    · have hnb : W.get_neighbor_event_indices t = (some (W.events.length - 1), none) := by
        rw [get_neighbor_eval W t hne, if_pos h2]
      simp only [Worldline.get_event_at_time, hnb, amended_three_regime,
        if_neg (not_le.mpr h1), if_pos h2, getD_pred_length_eq_getLastD W.events hne]
    · have hppne : partition_point t W.events ≠ 0 := by
        rw [hEq, partition_point_cons_lt_aux]
        · exact Nat.succ_ne_zero _
        · have : (W.events.headD default_event) = a := by rw [hEq]; rfl
          rw [← this]
          exact h1
      have hnb : W.get_neighbor_event_indices t =
          (some (partition_point t W.events - 1), some (partition_point t W.events)) := by
        rw [get_neighbor_eval W t hne, if_neg h2, if_neg hppne]
      simp only [Worldline.get_event_at_time, hnb, amended_three_regime,
        if_neg (not_le.mpr h1), if_neg h2]

/-- C3 (amended): for a nonempty, sorted worldline, `get_event_at_time`
implements the three-regime policy with the corrected boundaries of
`amended_three_regime`. -/
theorem claim_C3_three_regime (W : Worldline) (t : ℝ) (hne : W.events ≠ [])
    (hs : sorted_events W.events) :
    W.get_event_at_time t = amended_three_regime W t :=
  get_event_at_time_regimes W t hne hs

/-- Witness for C3 at a concrete single-event worldline. -/
theorem claim_C3_witness :
    Worldline.get_event_at_time ⟨[⟨InertialFrame.default_frame, 0, .inertial⟩], 1⟩ 5 =
      amended_three_regime ⟨[⟨InertialFrame.default_frame, 0, .inertial⟩], 1⟩ 5 :=
  claim_C3_three_regime ⟨[⟨InertialFrame.default_frame, 0, .inertial⟩], 1⟩ 5
    (by simp) (by simp [sorted_events])

/-- C3 counterexample: on the worldline with inertial events at times 0
(at the spatial origin) and 1 (at x = 55), querying exactly at the last
event's time t = 1 extrapolates from the bracketing earlier event (giving
x = 0), not from the last event as the claimed policy's "at or after"
boundary demands (which would give x = 55). -/
theorem claim_C3_counterexample :
    Worldline.get_event_at_time
        ⟨[⟨⟨⟨0, 0, 0, 0⟩, ⟨0, 0, 0⟩⟩, 0, .inertial⟩,
          ⟨⟨⟨55, 0, 0, 1⟩, ⟨0, 0, 0⟩⟩, 1, .inertial⟩], 1⟩ 1 ≠
      claimed_three_regime
        ⟨[⟨⟨⟨0, 0, 0, 0⟩, ⟨0, 0, 0⟩⟩, 0, .inertial⟩,
          ⟨⟨⟨55, 0, 0, 1⟩, ⟨0, 0, 0⟩⟩, 1, .inertial⟩], 1⟩ 1 := by
  intro h
  have hx := congrArg (fun e => e.frame.position.x) h
  have hcode : (Worldline.get_event_at_time
      ⟨[⟨⟨⟨0, 0, 0, 0⟩, ⟨0, 0, 0⟩⟩, 0, .inertial⟩,
        ⟨⟨⟨55, 0, 0, 1⟩, ⟨0, 0, 0⟩⟩, 1, .inertial⟩], 1⟩ 1).frame.position.x = 0 := by
    norm_num [Worldline.get_event_at_time, Worldline.get_neighbor_event_indices,
      partition_point, WorldlineEvent.time, WorldlineEvent.get_event_at_time_offset,
      InertialFrame.predict, List.getLastD]
  have hclaim : (claimed_three_regime
      ⟨[⟨⟨⟨0, 0, 0, 0⟩, ⟨0, 0, 0⟩⟩, 0, .inertial⟩,
        ⟨⟨⟨55, 0, 0, 1⟩, ⟨0, 0, 0⟩⟩, 1, .inertial⟩], 1⟩ 1).frame.position.x = 55 := by
    norm_num [claimed_three_regime, WorldlineEvent.time, List.getLastD,
      WorldlineEvent.get_event_at_time_offset, InertialFrame.predict]
  simp only [hcode, hclaim] at hx
  norm_num at hx

/-! Claim C5: the worldline invariant (nonempty, strictly sorted) is
established by `new` and preserved by `insert_event` and `bake_events`. -/

theorem accel_step_sizes_sum (off res : ℝ) (hoff : 0 ≤ off) (hres : 0 < res) :
    (accel_step_sizes off res).sum = off := by
  have hfl : 0 ≤ ⌊off / res⌋ := Int.floor_nonneg.mpr (div_nonneg hoff (le_of_lt hres))
  have hcast : ((⌊off / res⌋.toNat : ℕ) : ℝ) = ((⌊off / res⌋ : ℤ) : ℝ) := by
    rw [← Int.cast_natCast, Int.toNat_of_nonneg hfl]
  rw [accel_step_sizes, List.sum_append, List.sum_replicate, List.sum_cons,
    List.sum_nil, rem_euclid, nsmul_eq_mul, hcast]
  ring

theorem run_accel_steps_position_w (a : Vector3) :
    ∀ (sizes : List ℝ) (fr : InertialFrame) (pt : ℝ),
      (run_accel_steps a (fr, pt) sizes).1.position.w = fr.position.w + sizes.sum
  | [], fr, pt => by simp [run_accel_steps]
  | h :: rest, fr, pt => by
      rw [run_accel_steps, run_accel_steps_position_w a rest _ _, step_position_w,
        List.sum_cons]
      ring

theorem get_event_at_time_offset_time (e : WorldlineEvent) (off res : ℝ)
    (hoff : 0 ≤ off) (hres : 0 < res) :
    (e.get_event_at_time_offset off res).time = e.time + off := by
  cases hk : e.kind with
  | inertial =>
      simp [WorldlineEvent.get_event_at_time_offset, hk, WorldlineEvent.time,
        InertialFrame.predict]
  | acceleration a =>
      simp only [WorldlineEvent.get_event_at_time_offset, hk, WorldlineEvent.time]
      rw [run_accel_steps_position_w, accel_step_sizes_sum off res hoff hres]

theorem get_event_at_time_offset_kind (e : WorldlineEvent) (off res : ℝ) :
    (e.get_event_at_time_offset off res).kind = e.kind := by
  cases hk : e.kind <;> simp [WorldlineEvent.get_event_at_time_offset, hk]

theorem getLastD_mem {l : List WorldlineEvent} (h : l ≠ []) :
    l.getLastD default_event ∈ l := by
  obtain ⟨a, rest, hEq⟩ := List.exists_cons_of_ne_nil h
  rw [hEq]
  exact getLastD_mem_cons rest a

theorem le_getLastD_of_mem : ∀ (l : List WorldlineEvent), sorted_events l →
    ∀ e ∈ l, e.time ≤ (l.getLastD default_event).time
  | [], _, e, he => by simp at he
  | [a], _, e, he => by
      rcases List.mem_singleton.mp he with rfl
      simp [List.getLastD]
  | a :: b :: rest, hs, e, he => by
      rw [getLastD_cons_cons]
      have hcons := List.pairwise_cons.mp hs
      rcases List.mem_cons.mp he with rfl | h'
      · have hab : e.time < b.time := hcons.1 b (by simp)
        have hb := le_getLastD_of_mem (b :: rest) hcons.2 b (by simp)
        linarith
      · exact le_getLastD_of_mem (b :: rest) hcons.2 e h'

theorem all_lt_of_last_lt {l : List WorldlineEvent} (hs : sorted_events l)
    {t : ℝ} (hlast : (l.getLastD default_event).time < t) : ∀ e ∈ l, e.time < t :=
  fun e he => lt_of_le_of_lt (le_getLastD_of_mem l hs e he) hlast

/-- When every stored event lies strictly before `t`, the query at `t` lands
in the open-ended forward branch and its result carries coordinate time
exactly `t`. -/
theorem get_event_at_time_time_of_all_lt (V : Worldline) (t : ℝ)
    (hne : V.events ≠ []) (hres : 0 < V.time_resolution)
    (hall : ∀ e ∈ V.events, e.time < t) :
    (V.get_event_at_time t).time = t := by
  have hlast : (V.events.getLastD default_event).time < t :=
    hall _ (getLastD_mem hne)
  have hnb : V.get_neighbor_event_indices t = (some (V.events.length - 1), none) := by
    rw [get_neighbor_eval V t hne, if_pos hlast]
  simp only [Worldline.get_event_at_time, hnb]
  rw [getD_pred_length_eq_getLastD V.events hne,
    get_event_at_time_offset_time _ _ _ (by linarith) hres]
  ring

/-- Appending the event computed by `get_event_at_time t` (with any kind) to a
sorted list of events all strictly before `t` preserves the invariant. -/
theorem insert_shape_wf (V : Worldline) (t : ℝ) (k : WorldlineEventKind)
    (hres : 0 < V.time_resolution) (hs : sorted_events V.events)
    (hall : ∀ e ∈ V.events, e.time < t) :
    (⟨V.events ++ [⟨(V.get_event_at_time t).frame, (V.get_event_at_time t).proper_time, k⟩],
      V.time_resolution⟩ : Worldline).WF := by
  refine ⟨by simp, ?_, hres⟩
  rw [sorted_events, List.pairwise_append]
  refine ⟨hs, List.pairwise_singleton _ _, ?_⟩
  intro x hx y hy
  rcases List.mem_singleton.mp hy with rfl
  by_cases hne : V.events = []
  · rw [hne] at hx
    simp at hx
  · have htime : (⟨(V.get_event_at_time t).frame, (V.get_event_at_time t).proper_time,
        k⟩ : WorldlineEvent).time = t := by
      have := get_event_at_time_time_of_all_lt V t hne hres hall
      rw [WorldlineEvent.time] at this ⊢
      exact this
    rw [htime]
    exact hall x hx

/-- One unfolding step of the fueled `insert_event`: successful insertion
appends the computed event to the (possibly drained) event list. -/
theorem insert_event_fuel_shape {fuel : ℕ} {interval t : ℝ} {k : WorldlineEventKind}
    {W W' : Worldline} (h : insert_event_fuel (fuel + 1) interval t k W = some W') :
    ∃ baked, bake_events_fuel fuel interval t W = some baked ∧
      W' = (let drained : Worldline :=
              match (baked.get_neighbor_event_indices t).2 with
              | some index_after => ⟨baked.events.take index_after, baked.time_resolution⟩
              | none => baked
            ⟨drained.events ++
              [⟨(drained.get_event_at_time t).frame,
                (drained.get_event_at_time t).proper_time, k⟩],
              drained.time_resolution⟩) := by
  rw [insert_event_fuel] at h
  cases hbake : bake_events_fuel fuel interval t W with
  | none => rw [hbake] at h; simp at h
  | some baked =>
      rw [hbake] at h
      simp only [Option.bind_eq_bind, Option.some_bind, Option.some.injEq] at h
      exact ⟨baked, rfl, h.symm⟩

/-- The drained worldline inside `insert_event` is sorted, keeps the
resolution, and all its events lie strictly before the insertion time. -/
theorem drained_props (V : Worldline) (t : ℝ) (hV : V.WF) :
    let drained : Worldline :=
      match (V.get_neighbor_event_indices t).2 with
      | some index_after => ⟨V.events.take index_after, V.time_resolution⟩
      | none => V
    sorted_events drained.events ∧ drained.time_resolution = V.time_resolution ∧
      ∀ e ∈ drained.events, e.time < t := by
  obtain ⟨hne, hs, hres⟩ := hV
  cases hnb : (V.get_neighbor_event_indices t).2 with
  | none =>
      simp only [hnb]
      refine ⟨hs, trivial, ?_⟩
      rw [get_neighbor_eval V t hne] at hnb
      by_cases hlast : (V.events.getLastD default_event).time < t
      · exact all_lt_of_last_lt hs hlast
      · rw [if_neg hlast] at hnb
        simp at hnb
  | some ai =>
      simp only [hnb]
      rw [get_neighbor_eval V t hne] at hnb
      by_cases hlast : (V.events.getLastD default_event).time < t
      · rw [if_pos hlast] at hnb
        simp at hnb
      · rw [if_neg hlast] at hnb
        have hai : ai = partition_point t V.events := by
          by_cases hz : partition_point t V.events = 0 <;> simp [hz] at hnb <;> omega
        refine ⟨?_, trivial, ?_⟩
        · exact List.Pairwise.sublist (List.take_sublist ai V.events) hs
        · intro e he
          rw [hai] at he
          exact mem_take_partition_point_lt t V.events e he

/-- The fueled worldline operations preserve the invariant. -/
theorem fuel_ops_preserve_wf : ∀ fuel : ℕ,
    (∀ (interval t : ℝ) (k : WorldlineEventKind) (W W' : Worldline), W.WF →
      insert_event_fuel fuel interval t k W = some W' → W'.WF) ∧
    (∀ (interval t : ℝ) (W W' : Worldline), W.WF →
      bake_events_fuel fuel interval t W = some W' → W'.WF) ∧
    (∀ (interval bs bc t : ℝ) (k : WorldlineEventKind) (W W' : Worldline), W.WF →
      bake_loop_fuel fuel interval bs bc t k W = some W' → W'.WF)
  | 0 => by
      refine ⟨?_, ?_, ?_⟩ <;> intros <;> simp_all [insert_event_fuel, bake_events_fuel,
        bake_loop_fuel]
  | fuel + 1 => by
      obtain ⟨ihi, ihb, ihl⟩ := fuel_ops_preserve_wf fuel
      refine ⟨?_, ?_, ?_⟩
      · intro interval t k W W' hW h
        obtain ⟨baked, hbake, hshape⟩ := insert_event_fuel_shape h
        have hbWF : baked.WF := ihb interval t W baked hW hbake
        obtain ⟨hds, hdres, hdall⟩ := drained_props baked t hbWF
        rw [hshape]
        cases hnb : (baked.get_neighbor_event_indices t).2 with
        | none =>
            simp only [hnb] at hds hdall ⊢
            exact insert_shape_wf baked t k hbWF.2.2 hds hdall
        | some ai =>
            simp only [hnb] at hds hdall ⊢
            exact insert_shape_wf ⟨baked.events.take ai, baked.time_resolution⟩ t k
              hbWF.2.2 hds hdall
      · intro interval t W W' hW h
        rw [bake_events_fuel] at h
        cases hnb : W.get_neighbor_event_indices t with
        | mk fst snd =>
            rw [hnb] at h
            cases snd with
            | some ai =>
                simp only [Option.some.injEq] at h
                rw [← h]; exact hW
            | none =>
                cases fst with
                | none =>
                    simp only [Option.some.injEq] at h
                    rw [← h]; exact hW
                | some ib =>
                    by_cases hik : (W.events.getD ib default_event).kind.is_inertial
                    · simp only [hik, if_true, Option.some.injEq] at h
                      rw [← h]; exact hW
                    · simp only [hik, if_false, Bool.false_eq_true] at h
                      exact ihl _ _ _ _ _ _ _ hW h
      · intro interval bs bc t k W W' hW h
        rw [bake_loop_fuel] at h
        by_cases hlt : bc < t
        · rw [if_pos hlt] at h
          cases hins : insert_event_fuel fuel interval bc k W with
          | none => rw [hins] at h; simp at h
          | some inserted =>
              rw [hins] at h
              simp only [Option.bind_eq_bind, Option.some_bind] at h
              exact ihl _ _ _ _ _ _ _ (ihi _ _ _ _ _ hW hins) h
        · rw [if_neg hlt] at h
          simp only [Option.some.injEq] at h
          rw [← h]; exact hW

/-- A sequence of worldline commands (the operations a caller may issue). -/
inductive WorldlineOp
  | insert (t : ℝ) (k : WorldlineEventKind)
  | bake (t : ℝ)

/-- Apply a sequence of `insert_event` / `bake_events` calls. -/
def apply_ops (fuel : ℕ) : List WorldlineOp → Worldline → Option Worldline
  | [], W => some W
  | .insert t k :: rest, W => (W.insert_event fuel t k).bind (apply_ops fuel rest)
  | .bake t :: rest, W => (W.bake_events fuel t).bind (apply_ops fuel rest)

theorem apply_ops_preserve_wf (fuel : ℕ) :
    ∀ (ops : List WorldlineOp) (W W' : Worldline), W.WF →
      apply_ops fuel ops W = some W' → W'.WF
  | [], W, W', hW, h => by
      simp only [apply_ops, Option.some.injEq] at h
      rw [← h]; exact hW
  | WorldlineOp.insert t k :: rest, W, W', hW, h => by
      rw [apply_ops] at h
      cases hop : W.insert_event fuel t k with
      | none => rw [hop] at h; simp at h
      | some W₁ =>
          rw [hop] at h
          simp only [Option.some_bind] at h
          exact apply_ops_preserve_wf fuel rest W₁ W'
            ((fuel_ops_preserve_wf fuel).1 _ _ _ _ _ hW hop) h
  | WorldlineOp.bake t :: rest, W, W', hW, h => by
      rw [apply_ops] at h
      cases hop : W.bake_events fuel t with
      | none => rw [hop] at h; simp at h
      | some W₁ =>
          rw [hop] at h
          simp only [Option.some_bind] at h
          exact apply_ops_preserve_wf fuel rest W₁ W'
            ((fuel_ops_preserve_wf fuel).2.1 _ _ _ _ hW hop) h

/-- C5: a worldline constructed by `new` and then subjected to any sequence
of (successfully fueled) `insert_event` and `bake_events` calls always has a
nonempty event list with strictly increasing coordinate times. -/
theorem claim_C5_invariant (f : InertialFrame) (fuel : ℕ) (ops : List WorldlineOp)
    (W' : Worldline) (h : apply_ops fuel ops (Worldline.new f) = some W') :
    W'.events ≠ [] ∧ sorted_events W'.events := by
  have hnew : (Worldline.new f).WF := by
    refine ⟨by simp [Worldline.new], ?_, by norm_num [Worldline.new, PHYS_TIME_STEP]⟩
    simp [Worldline.new, sorted_events]
  have := apply_ops_preserve_wf fuel ops (Worldline.new f) W' hnew h
  exact ⟨this.1, this.2.1⟩

/-- Witness for C5: a fresh worldline with one concrete inserted event. -/
theorem claim_C5_witness :
    (⟨[⟨InertialFrame.default_frame, 0, .inertial⟩,
       ⟨⟨⟨0, 0, 0, 1⟩, ⟨0, 0, 0⟩⟩, 1, .inertial⟩], PHYS_TIME_STEP⟩ : Worldline).events ≠ [] ∧
      sorted_events (⟨[⟨InertialFrame.default_frame, 0, .inertial⟩,
        ⟨⟨⟨0, 0, 0, 1⟩, ⟨0, 0, 0⟩⟩, 1, .inertial⟩], PHYS_TIME_STEP⟩ : Worldline).events :=
  claim_C5_invariant InertialFrame.default_frame 2 [.insert 1 .inertial] _ (by
    norm_num [apply_ops, Worldline.insert_event, insert_event_fuel, bake_events_fuel,
      Worldline.new, Worldline.get_neighbor_event_indices, partition_point,
      Worldline.get_event_at_time, WorldlineEvent.get_event_at_time_offset,
      WorldlineEvent.time, InertialFrame.predict, InertialFrame.default_frame,
      WorldlineEventKind.is_inertial, lorentz_factor, Vector3.magnitude2,
      Real.sqrt_one, List.getLastD, Vector3.extend, EVENT_BAKE_INTERVAL])

/-! Claim C8: `Universe::step`. -/

theorem mapM_option_forall₂ {α β : Type} (f : α → Option β) :
    ∀ (l : List α) (l' : List β), l.mapM f = some l' →
      List.Forall₂ (fun a b => f a = some b) l l'
  | [], l', h => by
      simp only [List.mapM_nil, Option.pure_def, Option.some.injEq] at h
      rw [← h]
      constructor
  | a :: rest, l', h => by
      rw [List.mapM_cons] at h
      cases hfa : f a with
      | none => rw [hfa] at h; simp at h
      | some b =>
          rw [hfa] at h
          cases hrest : rest.mapM f with
          | none => rw [hrest] at h; simp at h
          | some bs =>
              rw [hrest] at h
              simp only [Option.bind_eq_bind, Option.pure_def, Option.some_bind,
                Option.some.injEq] at h
              rw [← h]
              exact List.Forall₂.cons hfa (mapM_option_forall₂ f rest bs hrest)

/-- A zero-delta step never moves the universe clock, whatever the user's
Lorentz factor evaluates to. -/
theorem step_zero_time (v : Universe) (fuel : ℕ) (v' : Universe)
    (h : v.step fuel 0 = some v') : v'.time = v.time := by
  rw [Universe.step] at h
  cases hev : v.user_event_now with
  | none => rw [hev] at h; simp at h
  | some ev =>
      rw [hev] at h
      simp only [Option.bind_eq_bind, Option.some_bind] at h
      rcases Option.bind_eq_some.mp h with ⟨l', _, hpure⟩
      simp only [Option.some.injEq] at hpure
      rw [← hpure]
      simp [zero_mul]

/-- C8: a successful `Universe::step(delta)` reads the user's frame at the
pre-step time, advances the clock by exactly `delta * γ_user`, and maps every
entity (user included) to the result of baking its worldline — with
`time_resolution` set to `PHYS_TIME_STEP * γ_user` — up to the new time.
Moreover `step 0` leaves the clock unchanged and is idempotent on the clock:
a further `step 0` also leaves it unchanged (matching the spec's "no-op on
`time` (aside from zero-length baking) and idempotent"). -/
theorem claim_C8_universe_step (u : Universe) (delta : ℝ) (fuel : ℕ) (u' : Universe)
    (h : u.step fuel delta = some u') :
    (∃ ev, u.user_event_now = some ev ∧
      u'.time = u.time + delta * lorentz_factor ev.frame.velocity ∧
      u'.user_entity_id = u.user_entity_id ∧
      List.Forall₂ (fun p q => p.1 = q.1 ∧
        Worldline.bake_events fuel
          ⟨p.2.worldline.events, PHYS_TIME_STEP * lorentz_factor ev.frame.velocity⟩
          u'.time = some q.2.worldline) u.entities u'.entities) ∧
    (delta = 0 → u'.time = u.time) ∧
    (∀ (fuel₂ : ℕ) (u'' : Universe), u'.step fuel₂ 0 = some u'' → u''.time = u'.time) := by
  refine ⟨?_, ?_, fun fuel₂ u'' h₂ => step_zero_time u' fuel₂ u'' h₂⟩
  · rw [Universe.step] at h
    cases hev : u.user_event_now with
    | none => rw [hev] at h; simp at h
    | some ev =>
        rw [hev] at h
        simp only [Option.bind_eq_bind, Option.some_bind] at h
        rcases Option.bind_eq_some.mp h with ⟨l', hmap, hpure⟩
        simp only [Option.some.injEq] at hpure
        refine ⟨ev, rfl, ?_, ?_, ?_⟩
        · rw [← hpure]
        · rw [← hpure]
        · have hfa := mapM_option_forall₂ _ _ _ hmap
          have hents : u'.entities = l' := by rw [← hpure]
          have htime : u'.time = u.time + delta * lorentz_factor ev.frame.velocity := by
            rw [← hpure]
          rw [hents, htime]
          refine List.Forall₂.imp ?_ hfa
          intro p q hpq
          rcases Option.bind_eq_some.mp hpq with ⟨baked, hbk, hq⟩
          simp only [Option.some.injEq] at hq
          rw [← hq]
          exact ⟨rfl, hbk⟩
  · intro hδ
    subst hδ
    exact step_zero_time u fuel u' h

/-- Witness for C8: a one-entity universe whose user is the at-rest seed. -/
theorem claim_C8_witness :
    (∃ ev, (⟨[(0, ⟨⟨[⟨InertialFrame.default_frame, 0, .inertial⟩], 1⟩⟩)], 0, 0⟩ :
        Universe).user_event_now = some ev ∧
      (⟨[(0, ⟨⟨[⟨InertialFrame.default_frame, 0, .inertial⟩],
          PHYS_TIME_STEP * 1⟩⟩)], 0, 1⟩ : Universe).time =
        (⟨[(0, ⟨⟨[⟨InertialFrame.default_frame, 0, .inertial⟩], 1⟩⟩)], 0, 0⟩ :
          Universe).time + 1 * lorentz_factor ev.frame.velocity ∧
      (⟨[(0, ⟨⟨[⟨InertialFrame.default_frame, 0, .inertial⟩],
          PHYS_TIME_STEP * 1⟩⟩)], 0, 1⟩ : Universe).user_entity_id =
        (⟨[(0, ⟨⟨[⟨InertialFrame.default_frame, 0, .inertial⟩], 1⟩⟩)], 0, 0⟩ :
          Universe).user_entity_id ∧
      List.Forall₂ (fun p q => p.1 = q.1 ∧
        Worldline.bake_events 2
          ⟨p.2.worldline.events, PHYS_TIME_STEP * lorentz_factor ev.frame.velocity⟩
          (⟨[(0, ⟨⟨[⟨InertialFrame.default_frame, 0, .inertial⟩],
            PHYS_TIME_STEP * 1⟩⟩)], 0, 1⟩ : Universe).time = some q.2.worldline)
        (⟨[(0, ⟨⟨[⟨InertialFrame.default_frame, 0, .inertial⟩], 1⟩⟩)], 0, 0⟩ :
          Universe).entities
        (⟨[(0, ⟨⟨[⟨InertialFrame.default_frame, 0, .inertial⟩],
          PHYS_TIME_STEP * 1⟩⟩)], 0, 1⟩ : Universe).entities) ∧
    ((1 : ℝ) = 0 →
      (⟨[(0, ⟨⟨[⟨InertialFrame.default_frame, 0, .inertial⟩],
        PHYS_TIME_STEP * 1⟩⟩)], 0, 1⟩ : Universe).time =
      (⟨[(0, ⟨⟨[⟨InertialFrame.default_frame, 0, .inertial⟩], 1⟩⟩)], 0, 0⟩ :
        Universe).time) ∧
    (∀ (fuel₂ : ℕ) (u'' : Universe),
      (⟨[(0, ⟨⟨[⟨InertialFrame.default_frame, 0, .inertial⟩],
        PHYS_TIME_STEP * 1⟩⟩)], 0, 1⟩ : Universe).step fuel₂ 0 = some u'' →
      u''.time = (⟨[(0, ⟨⟨[⟨InertialFrame.default_frame, 0, .inertial⟩],
        PHYS_TIME_STEP * 1⟩⟩)], 0, 1⟩ : Universe).time) :=
  claim_C8_universe_step
    ⟨[(0, ⟨⟨[⟨InertialFrame.default_frame, 0, .inertial⟩], 1⟩⟩)], 0, 0⟩ 1 2
    ⟨[(0, ⟨⟨[⟨InertialFrame.default_frame, 0, .inertial⟩], PHYS_TIME_STEP * 1⟩⟩)], 0, 1⟩
    (by norm_num [Universe.step, Universe.user_event_now, Universe.get_user_entity,
      List.lookup, Worldline.get_event_at_time, Worldline.get_neighbor_event_indices,
      partition_point, WorldlineEvent.time, WorldlineEvent.get_event_at_time_offset,
      InertialFrame.predict, InertialFrame.default_frame, lorentz_factor,
      Vector3.magnitude2, Real.sqrt_one, List.getLastD, Worldline.bake_events,
      bake_events_fuel, WorldlineEventKind.is_inertial, Vector3.extend,
      List.mapM, List.mapM.loop, Option.bind_eq_bind, Option.some_bind,
      Option.pure_def])

/-! Claims C1 and C2: invariance of queries under baking, and locality of
`insert_event`. The key algebraic fact is that the chunked RK4 integration of
an acceleration segment composes exactly when the split point is a whole
number of `time_resolution` steps from the segment start. -/

theorem runge_kutta_step_zero_V (y : Vector3) (t : ℝ) (f : ℝ → Vector3 → Vector3) :
    runge_kutta_step y t 0 f = y := by
  rw [runge_kutta_step]
  apply Vector3.ext <;> simp

theorem runge_kutta_step_zero_R (y t : ℝ) (f : ℝ → ℝ → ℝ) :
    runge_kutta_step y t 0 f = y := by
  rw [runge_kutta_step]
  simp

/-- A zero-length `step` is the identity provided the incoming speed does not
already exceed the clamp threshold (as is the case for any post-step frame). -/
theorem step_zero_of_clamped (fr : InertialFrame) (a : Vector3)
    (hcl : fr.velocity.magnitude2 ≤ MAX_SPEED * MAX_SPEED) :
    fr.step 0 a = (fr, 0) := by
  rw [InertialFrame.step]
  simp only [runge_kutta_step_zero_V, runge_kutta_step_zero_R]
  rw [if_neg (not_lt.mpr hcl)]
  refine Prod.ext ?_ rfl
  refine InertialFrame.ext ?_ rfl
  apply Vector4.ext <;> simp [Vector3.extend, Vector4.truncate]

theorem run_accel_steps_append (a : Vector3) :
    ∀ (l₁ l₂ : List ℝ) (st : InertialFrame × ℝ),
      run_accel_steps a st (l₁ ++ l₂) = run_accel_steps a (run_accel_steps a st l₁) l₂
  | [], l₂, st => by
      obtain ⟨fr, pt⟩ := st
      simp [run_accel_steps]
  | h :: rest, l₂, st => by
      obtain ⟨fr, pt⟩ := st
      rw [List.cons_append, run_accel_steps, run_accel_steps,
        run_accel_steps_append a rest l₂]

theorem run_accel_steps_clamped (a : Vector3) :
    ∀ (l : List ℝ) (st : InertialFrame × ℝ), l ≠ [] →
      ((run_accel_steps a st l).1.velocity).magnitude2 ≤ MAX_SPEED * MAX_SPEED
  | [], _, h => absurd rfl h
  | [h], st, _ => by
      obtain ⟨fr, pt⟩ := st
      rw [run_accel_steps, run_accel_steps]
      exact step_velocity_magnitude2_le fr h a
  | h :: h₂ :: rest, st, _ => by
      obtain ⟨fr, pt⟩ := st
      rw [run_accel_steps]
      exact run_accel_steps_clamped a (h₂ :: rest) _ (by simp)

theorem accel_step_sizes_decomp (m : ℕ) (d res : ℝ) (hd : 0 ≤ d) (hres : 0 < res) :
    accel_step_sizes (↑m * res + d) res = List.replicate m res ++ accel_step_sizes d res := by
  have hres' : res ≠ 0 := ne_of_gt hres
  have hdiv : (↑m * res + d) / res = d / res + ↑m := by
    field_simp
    ring
  have hfloor : ⌊(↑m * res + d) / res⌋ = ⌊d / res⌋ + ↑m := by
    rw [hdiv, Int.floor_add_nat]
  have hfl : 0 ≤ ⌊d / res⌋ := Int.floor_nonneg.mpr (div_nonneg hd (le_of_lt hres))
  have htoNat : (⌊(↑m * res + d) / res⌋).toNat = m + (⌊d / res⌋).toNat := by
    rw [hfloor]
    omega
  have hrem : rem_euclid (↑m * res + d) res = rem_euclid d res := by
    rw [rem_euclid, rem_euclid, hfloor]
    push_cast
    ring
  rw [accel_step_sizes, accel_step_sizes, htoNat, hrem, List.replicate_add,
    List.append_assoc]

theorem accel_step_sizes_zero (res : ℝ) (_hres : 0 < res) :
    accel_step_sizes 0 res = [0] := by
  rw [accel_step_sizes, rem_euclid]
  norm_num

theorem run_sizes_mul (a : Vector3) (st : InertialFrame × ℝ) (m : ℕ) (hm : 1 ≤ m)
    (res : ℝ) (hres : 0 < res) :
    run_accel_steps a st (accel_step_sizes (↑m * res) res) =
      run_accel_steps a st (List.replicate m res) := by
  have h := accel_step_sizes_decomp m 0 res (le_refl 0) hres
  rw [add_zero] at h
  rw [h, accel_step_sizes_zero res hres, run_accel_steps_append]
  have hcl := run_accel_steps_clamped a (List.replicate m res) st
    (by simp; omega)
  rcases hE : run_accel_steps a st (List.replicate m res) with ⟨fr', pt'⟩
  simp only [run_accel_steps, step_zero_of_clamped fr' a (by simpa [hE] using hcl)]
  simp

/-- Exact composition of the chunked RK4 integrator: integrating a whole
number of resolution steps and then the remainder equals integrating the
whole offset at once. This is the algebraic heart of bake-invariance. -/
theorem offset_accel_comp (e : WorldlineEvent) (a : Vector3)
    (hk : e.kind = .acceleration a) (m : ℕ) (hm : 1 ≤ m) (d res : ℝ)
    (hd : 0 ≤ d) (hres : 0 < res) :
    (e.get_event_at_time_offset (↑m * res) res).get_event_at_time_offset d res =
      e.get_event_at_time_offset (↑m * res + d) res := by
  simp only [WorldlineEvent.get_event_at_time_offset, hk]
  rw [accel_step_sizes_decomp m d res hd hres, run_accel_steps_append,
    run_sizes_mul a _ m hm res hres]

theorem headD_append {l : List WorldlineEvent} (hne : l ≠ [])
    (l₂ : List WorldlineEvent) :
    (l ++ l₂).headD default_event = l.headD default_event := by
  cases l with
  | nil => exact absurd rfl hne
  | cons a r => rfl

theorem getLastD_append_of_ne_nil : ∀ (l₁ l₂ : List WorldlineEvent), l₂ ≠ [] →
    (l₁ ++ l₂).getLastD default_event = l₂.getLastD default_event
  | [], _, _ => rfl
  | a :: l₁, l₂, h => by
      rw [List.cons_append]
      have h1 : (a :: (l₁ ++ l₂)).getLastD default_event = (l₁ ++ l₂).getLastD a :=
        List.getLastD_cons ..
      rw [h1]
      obtain ⟨b, rest, hEq⟩ :=
        List.exists_cons_of_ne_nil (show l₁ ++ l₂ ≠ [] by simp [h])
      rw [hEq, getLastD_indep rest b a default_event, ← hEq]
      exact getLastD_append_of_ne_nil l₁ l₂ h

theorem sorted_append_last {l : List WorldlineEvent} (hs : sorted_events l)
    (E : WorldlineEvent) (hlt : ∀ e ∈ l, e.time < E.time) :
    sorted_events (l ++ [E]) := by
  rw [sorted_events, List.pairwise_append]
  refine ⟨hs, List.pairwise_singleton _ _, fun x hx y hy => ?_⟩
  rcases List.mem_singleton.mp hy with rfl
  exact hlt x hx

theorem mem_drop_partition_point_ge (t : ℝ) : ∀ (l : List WorldlineEvent),
    sorted_events l → ∀ e ∈ l.drop (partition_point t l), ¬ e.time < t
  | [], _, e, he => by simp at he
  | a :: rest, hs, e, he => by
      by_cases ha : a.time < t
      · rw [partition_point_cons_lt_aux ha] at he
        exact mem_drop_partition_point_ge t rest (List.pairwise_cons.mp hs).2 e
          (by simpa using he)
      · rw [partition_point_cons_ge_aux ha] at he
        rcases List.mem_cons.mp (by simpa using he) with rfl | h'
        · exact ha
        · intro hlt
          exact ha (lt_trans ((List.pairwise_cons.mp hs).1 e h') hlt)

theorem partition_point_pos_of_head_lt {l : List WorldlineEvent} (hne : l ≠ [])
    {t : ℝ} (h : (l.headD default_event).time < t) :
    partition_point t l ≠ 0 := by
  obtain ⟨a, rest, hEq⟩ := List.exists_cons_of_ne_nil hne
  have ha : a.time < t := by
    have : l.headD default_event = a := by rw [hEq]; rfl
    rw [← this]
    exact h
  rw [hEq, partition_point_cons_lt_aux ha]
  exact Nat.succ_ne_zero _

/-- Appending one event strictly after the last preserves every query at or
before the appended event's time. -/
theorem append_preserves_query_below (W : Worldline) (E : WorldlineEvent)
    (hne : W.events ≠ []) (hs : sorted_events W.events)
    (hlast : (W.events.getLastD default_event).time < E.time)
    (s : ℝ) (hsle : s ≤ E.time) :
    Worldline.get_event_at_time ⟨W.events ++ [E], W.time_resolution⟩ s =
      W.get_event_at_time s := by
  have hall : ∀ e ∈ W.events, e.time < E.time :=
    fun e he => lt_of_le_of_lt (le_getLastD_of_mem W.events hs e he) hlast
  have hs' : sorted_events (W.events ++ [E]) := sorted_append_last hs E hall
  rw [get_event_at_time_regimes ⟨W.events ++ [E], W.time_resolution⟩ s (by simp) hs',
    get_event_at_time_regimes W s hne hs, amended_three_regime, amended_three_regime]
  simp only [headD_append hne [E], List.getLastD_concat]
  by_cases h1 : s ≤ (W.events.headD default_event).time
  · rw [if_pos h1, if_pos h1]
  · push_neg at h1
    rw [if_neg (not_le.mpr h1), if_neg (not_le.mpr h1), if_neg (not_lt.mpr hsle)]
    by_cases h2 : (W.events.getLastD default_event).time < s
    · rw [if_pos h2]
      have hppW' : partition_point s (W.events ++ [E]) = W.events.length := by
        rw [partition_point_append_all_lt s W.events [E]
          (fun e he => lt_of_le_of_lt (le_getLastD_of_mem W.events hs e he) h2),
          partition_point_cons_ge_aux (not_lt.mpr hsle) []]
        omega
      rw [hppW']
      have hlen : W.events.length - 1 < W.events.length := by
        have : 0 < W.events.length := List.length_pos.mpr hne
        omega
      rw [List.getD_append _ _ _ _ hlen, getD_pred_length_eq_getLastD W.events hne]
    · rw [if_neg h2]
      have hppeq : partition_point s (W.events ++ [E]) = partition_point s W.events :=
        partition_point_append_stop s W.events [E]
          ⟨_, getLastD_mem hne, h2⟩
      rw [hppeq]
      have hpple := partition_point_le_length s W.events
      have hppne := partition_point_pos_of_head_lt hne h1
      rw [List.getD_append _ _ _ _ (by omega)]

/-- Appending the `m`-step checkpoint of the last (accelerating) event never
changes any query: below the checkpoint by the bracketing analysis, above it
by exact composition of the chunked integrator. -/
theorem append_checkpoint_preserves_query (W : Worldline) (a : Vector3) (m : ℕ)
    (hm : 1 ≤ m) (hWF : W.WF)
    (hk : (W.events.getLastD default_event).kind = .acceleration a) (s : ℝ) :
    Worldline.get_event_at_time
      ⟨W.events ++ [(W.events.getLastD default_event).get_event_at_time_offset
        (↑m * W.time_resolution) W.time_resolution], W.time_resolution⟩ s =
      W.get_event_at_time s := by
  obtain ⟨hne, hs0, hres⟩ := hWF
  have hmres : 0 ≤ (↑m : ℝ) * W.time_resolution := by positivity
  have hEt : ((W.events.getLastD default_event).get_event_at_time_offset
      (↑m * W.time_resolution) W.time_resolution).time =
      (W.events.getLastD default_event).time + ↑m * W.time_resolution :=
    get_event_at_time_offset_time _ _ _ hmres hres
  have hm1 : (1 : ℝ) ≤ ↑m := by exact_mod_cast hm
  have hmpos : 0 < (↑m : ℝ) * W.time_resolution := by nlinarith
  have hlast : (W.events.getLastD default_event).time <
      ((W.events.getLastD default_event).get_event_at_time_offset
        (↑m * W.time_resolution) W.time_resolution).time := by
    rw [hEt]
    linarith
  by_cases hsle : s ≤ ((W.events.getLastD default_event).get_event_at_time_offset
      (↑m * W.time_resolution) W.time_resolution).time
  · exact append_preserves_query_below W _ hne hs0 hlast s hsle
  · push_neg at hsle
    have hall : ∀ e ∈ W.events, e.time <
        ((W.events.getLastD default_event).get_event_at_time_offset
          (↑m * W.time_resolution) W.time_resolution).time :=
      fun e he => lt_of_le_of_lt (le_getLastD_of_mem W.events hs0 e he) hlast
    have hs' := sorted_append_last hs0 _ hall
    rw [get_event_at_time_regimes ⟨W.events ++ [_], W.time_resolution⟩ s (by simp) hs',
      get_event_at_time_regimes W s hne hs0, amended_three_regime, amended_three_regime]
    simp only [headD_append hne, List.getLastD_concat]
    have hLs : (W.events.getLastD default_event).time < s := lt_trans hlast hsle
    have hfirst : (W.events.headD default_event).time < s := by
      obtain ⟨aa, rr, hEq⟩ := List.exists_cons_of_ne_nil hne
      have hh : (W.events.headD default_event).time ≤
          (W.events.getLastD default_event).time := by
        have hmem : W.events.headD default_event ∈ W.events := by
          rw [hEq]
          simp
        exact le_getLastD_of_mem W.events hs0 _ hmem
      linarith
    rw [if_neg (not_le.mpr hfirst), if_neg (not_le.mpr hfirst), if_pos hsle, if_pos hLs]
    have hd : 0 ≤ s - ((W.events.getLastD default_event).get_event_at_time_offset
        (↑m * W.time_resolution) W.time_resolution).time := le_of_lt (by linarith)
    rw [offset_accel_comp (W.events.getLastD default_event) a hk m hm _
      W.time_resolution hd hres]
    have harg : ↑m * W.time_resolution + (s -
        ((W.events.getLastD default_event).get_event_at_time_offset
          (↑m * W.time_resolution) W.time_resolution).time) =
        s - (W.events.getLastD default_event).time := by
      rw [hEt]
      ring
    rw [harg]

theorem headD_le_getLastD {l : List WorldlineEvent} (hne : l ≠ [])
    (hs : sorted_events l) :
    (l.headD default_event).time ≤ (l.getLastD default_event).time := by
  obtain ⟨a, rest, hEq⟩ := List.exists_cons_of_ne_nil hne
  have hmem : l.headD default_event ∈ l := by
    rw [hEq]
    simp
  exact le_getLastD_of_mem l hs _ hmem

/-- The `bake_events` call made from inside `insert_event` during the baking
loop is a no-op: the requested time is within one bake interval of the last
event. -/
theorem inner_bake_noop : ∀ (f : ℕ) (interval bc : ℝ) (W baked : Worldline),
    W.events ≠ [] →
    (W.events.getLastD default_event).time < bc →
    bc ≤ (W.events.getLastD default_event).time +
      interval * (W.time_resolution / PHYS_TIME_STEP) →
    bake_events_fuel f interval bc W = some baked → baked = W
  | 0, _, _, _, _, _, _, _, h => by simp [bake_events_fuel] at h
  | f + 1, interval, bc, W, baked, hne, hlt, hle, h => by
      rw [bake_events_fuel, get_neighbor_eval W bc hne, if_pos hlt] at h
      simp only [getD_pred_length_eq_getLastD W.events hne] at h
      by_cases hik : (W.events.getLastD default_event).kind.is_inertial = true
      · rw [if_pos hik] at h
        simp only [Option.some.injEq] at h
        exact h.symm
      · rw [if_neg hik] at h
        cases f with
        | zero => simp [bake_loop_fuel] at h
        | succ f' =>
            rw [bake_loop_fuel, if_neg (not_lt.mpr hle)] at h
            simp only [Option.some.injEq] at h
            exact h.symm

/-- Inside the baking loop, each `insert_event` call appends exactly one
checkpoint: the extrapolation of the current last event by one bake interval
(a whole number of resolution steps). -/
theorem insert_checkpoint_shape (fuel : ℕ) (interval : ℝ) (k : ℕ) (hk1 : 1 ≤ k)
    (a : Vector3) (W V : Worldline) (hWF : W.WF)
    (hkind : (W.events.getLastD default_event).kind = .acceleration a)
    (hB : interval * (W.time_resolution / PHYS_TIME_STEP) = ↑k * W.time_resolution)
    (bc : ℝ)
    (hbc : bc = (W.events.getLastD default_event).time + ↑k * W.time_resolution)
    (h : insert_event_fuel fuel interval bc (.acceleration a) W = some V) :
    V = ⟨W.events ++ [(W.events.getLastD default_event).get_event_at_time_offset
      (↑k * W.time_resolution) W.time_resolution], W.time_resolution⟩ := by
  cases fuel with
  | zero => simp [insert_event_fuel] at h
  | succ f =>
      obtain ⟨baked, hbake, hshape⟩ := insert_event_fuel_shape h
      obtain ⟨hne, hs0, hres⟩ := hWF
      have hm1 : (1 : ℝ) ≤ ↑k := by exact_mod_cast hk1
      have hmpos : 0 < (↑k : ℝ) * W.time_resolution := by nlinarith
      have hlt : (W.events.getLastD default_event).time < bc := by
        rw [hbc]
        linarith
      have hle : bc ≤ (W.events.getLastD default_event).time +
          interval * (W.time_resolution / PHYS_TIME_STEP) := by
        rw [hbc, hB]
      have hbW : baked = W := inner_bake_noop f interval bc W baked hne hlt hle hbake
      rw [hbW] at hshape
      have hnb : W.get_neighbor_event_indices bc = (some (W.events.length - 1), none) := by
        rw [get_neighbor_eval W bc hne, if_pos hlt]
      have hq : W.get_event_at_time bc =
          (W.events.getLastD default_event).get_event_at_time_offset
            (↑k * W.time_resolution) W.time_resolution := by
        rw [get_event_at_time_regimes W bc hne hs0, amended_three_regime]
        have hfirst : ¬ bc ≤ (W.events.headD default_event).time := by
          have := headD_le_getLastD hne hs0
          push_neg
          linarith
        rw [if_neg hfirst, if_pos hlt,
          show bc - (W.events.getLastD default_event).time = ↑k * W.time_resolution by
            rw [hbc]; ring]
      have hkk : ((W.events.getLastD default_event).get_event_at_time_offset
          (↑k * W.time_resolution) W.time_resolution).kind = .acceleration a := by
        rw [get_event_at_time_offset_kind, hkind]
      rw [hshape]
      simp only [hnb, hq]
      rw [← hkk]

/-- Main induction for the baking loop: under the loop invariant (last event
accelerating, next bake time one interval past it, interval a whole number of
resolution steps) the loop preserves every query, well-formedness and the
resolution, and only appends events. -/
theorem bake_loop_main : ∀ (fuel k : ℕ) (interval bs bc t : ℝ) (a : Vector3)
    (W W' : Worldline), W.WF → 1 ≤ k →
    bs = ↑k * W.time_resolution →
    interval * (W.time_resolution / PHYS_TIME_STEP) = bs →
    (W.events.getLastD default_event).kind = .acceleration a →
    bc = (W.events.getLastD default_event).time + bs →
    bake_loop_fuel fuel interval bs bc t (.acceleration a) W = some W' →
    (∀ s, W'.get_event_at_time s = W.get_event_at_time s) ∧ W'.WF ∧
      W'.time_resolution = W.time_resolution ∧ ∃ tl, W'.events = W.events ++ tl
  | 0, _, _, _, _, _, _, _, _, _, _, _, _, _, _, h => by simp [bake_loop_fuel] at h
  | fuel + 1, k, interval, bs, bc, t, a, W, W', hWF, hk1, hbs, hB, hkind, hbc, h => by
      rw [bake_loop_fuel] at h
      by_cases hlt : bc < t
      · rw [if_pos hlt] at h
        cases hins : insert_event_fuel fuel interval bc (.acceleration a) W with
        | none => rw [hins] at h; simp at h
        | some W₁ =>
            rw [hins] at h
            simp only [Option.bind_eq_bind, Option.some_bind] at h
            have hshape := insert_checkpoint_shape fuel interval k hk1 a W W₁ hWF hkind
              (hbs ▸ hB) bc (by rw [hbc, hbs]) hins
            have hW₁WF : W₁.WF := (fuel_ops_preserve_wf fuel).1 _ _ _ _ _ hWF hins
            have hqpres : ∀ s, W₁.get_event_at_time s = W.get_event_at_time s := by
              intro s
              rw [hshape]
              exact append_checkpoint_preserves_query W a k hk1 hWF hkind s
            have hres₁ : W₁.time_resolution = W.time_resolution := by rw [hshape]
            have hlast₁ : W₁.events.getLastD default_event =
                (W.events.getLastD default_event).get_event_at_time_offset
                  (↑k * W.time_resolution) W.time_resolution := by
              rw [hshape]
              exact List.getLastD_concat ..
            have hkind₁ : (W₁.events.getLastD default_event).kind = .acceleration a := by
              rw [hlast₁, get_event_at_time_offset_kind, hkind]
            have htime₁ : (W₁.events.getLastD default_event).time = bc := by
              rw [hlast₁, get_event_at_time_offset_time _ _ _
                (mul_nonneg (Nat.cast_nonneg k) (le_of_lt hWF.2.2)) hWF.2.2, hbc, hbs]
            obtain ⟨hq', hWF', hres', tl', hext'⟩ :=
              bake_loop_main fuel k interval bs (bc + bs) t a W₁ W' hW₁WF hk1
                (by rw [hres₁, hbs]) (by rw [hres₁]; exact hB) hkind₁
                (by rw [htime₁]) h
            refine ⟨fun s => (hq' s).trans (hqpres s), hWF', by rw [hres', hres₁], ?_⟩
            refine ⟨[(W.events.getLastD default_event).get_event_at_time_offset
              (↑k * W.time_resolution) W.time_resolution] ++ tl', ?_⟩
            rw [hext', hshape, List.append_assoc]
      · rw [if_neg hlt] at h
        simp only [Option.some.injEq] at h
        subst h
        exact ⟨fun s => rfl, hWF, rfl, [], by simp⟩

/-- Full characterization of a successful `bake_events` when the interval is
a whole positive multiple of `PHYS_TIME_STEP`: queries, well-formedness and
the resolution are preserved, and events are only appended. -/
theorem bake_events_main (fuel k : ℕ) (hk1 : 1 ≤ k) (interval : ℝ)
    (hint : interval = ↑k * PHYS_TIME_STEP) (t : ℝ) (W W' : Worldline) (hWF : W.WF)
    (h : bake_events_fuel fuel interval t W = some W') :
    (∀ s, W'.get_event_at_time s = W.get_event_at_time s) ∧ W'.WF ∧
      W'.time_resolution = W.time_resolution ∧ ∃ tl, W'.events = W.events ++ tl := by
  cases fuel with
  | zero => simp [bake_events_fuel] at h
  | succ f =>
      obtain ⟨hne, hs0, hres⟩ := hWF
      rw [bake_events_fuel, get_neighbor_eval W t hne] at h
      by_cases hlast : (W.events.getLastD default_event).time < t
      · rw [if_pos hlast] at h
        simp only [getD_pred_length_eq_getLastD W.events hne] at h
        by_cases hik : (W.events.getLastD default_event).kind.is_inertial = true
        · rw [if_pos hik] at h
          simp only [Option.some.injEq] at h
          subst h
          exact ⟨fun s => rfl, ⟨hne, hs0, hres⟩, rfl, [], by simp⟩
        · rw [if_neg hik] at h
          obtain ⟨a, ha⟩ : ∃ a, (W.events.getLastD default_event).kind =
              .acceleration a := by
            cases hkk : (W.events.getLastD default_event).kind with
            | inertial => rw [hkk] at hik; simp [WorldlineEventKind.is_inertial] at hik
            | acceleration a => exact ⟨a, rfl⟩
          have hB : interval * (W.time_resolution / PHYS_TIME_STEP) =
              ↑k * W.time_resolution := by
            rw [hint, PHYS_TIME_STEP]
            field_simp
            ring
          rw [ha] at h
          exact bake_loop_main f k interval _ _ t a W W' ⟨hne, hs0, hres⟩ hk1 hB
            rfl ha rfl h
      · rw [if_neg hlast] at h
        simp only [Option.some.injEq] at h
        subst h
        exact ⟨fun s => rfl, ⟨hne, hs0, hres⟩, rfl, [], by simp⟩

/-- C1 (amended): baking never changes the result of `get_event_at_time` at
any query time, for any setting of `EVENT_BAKE_INTERVAL` that is a whole
positive multiple of `PHYS_TIME_STEP` (the source's constant 1.0 is
240 × PHYS_TIME_STEP). For intervals incommensurate with `PHYS_TIME_STEP`
the claim fails (see the counterexample): the checkpoints then split the RK4
integration at points off the resolution grid, which changes the computed
trajectory. -/
theorem claim_C1_bake_invariance (k : ℕ) (hk1 : 1 ≤ k) (interval : ℝ)
    (hint : interval = ↑k * PHYS_TIME_STEP) (W : Worldline) (hWF : W.WF)
    (t_b t : ℝ) (fuel : ℕ) (W' : Worldline)
    (h : bake_events_fuel fuel interval t_b W = some W') :
    W'.get_event_at_time t = W.get_event_at_time t :=
  (bake_events_main fuel k hk1 interval hint t_b W W' hWF h).1 t

/-- Witness for C1: baking an inertial single-event worldline with the
source's interval 1.0 = 240 × PHYS_TIME_STEP. -/
theorem claim_C1_witness :
    Worldline.get_event_at_time ⟨[⟨InertialFrame.default_frame, 0, .inertial⟩], 1⟩ 7 =
      Worldline.get_event_at_time ⟨[⟨InertialFrame.default_frame, 0, .inertial⟩], 1⟩ 7 :=
  claim_C1_bake_invariance 240 (by norm_num) 1 (by norm_num [PHYS_TIME_STEP])
    ⟨[⟨InertialFrame.default_frame, 0, .inertial⟩], 1⟩
    ⟨by simp, by simp [sorted_events], by norm_num⟩ 5 7 1
    ⟨[⟨InertialFrame.default_frame, 0, .inertial⟩], 1⟩
    (by norm_num [bake_events_fuel, Worldline.get_neighbor_event_indices,
      partition_point, WorldlineEvent.time, InertialFrame.default_frame,
      WorldlineEventKind.is_inertial, List.getLastD])

theorem headD_take {l : List WorldlineEvent} {n : ℕ} (hn : n ≠ 0) (hne : l ≠ []) :
    (l.take n).headD default_event = l.headD default_event := by
  obtain ⟨a, rest, hEq⟩ := List.exists_cons_of_ne_nil hne
  obtain ⟨m, rfl⟩ := Nat.exists_eq_succ_of_ne_zero hn
  rw [hEq]
  rfl

theorem take_ne_nil_of {l : List WorldlineEvent} {n : ℕ} (hn : n ≠ 0) (hne : l ≠ []) :
    l.take n ≠ [] := by
  obtain ⟨a, rest, hEq⟩ := List.exists_cons_of_ne_nil hne
  obtain ⟨m, rfl⟩ := Nat.exists_eq_succ_of_ne_zero hn
  rw [hEq]
  simp

/-- Removing a tail of events all at or after `t` does not change queries
strictly before `t`. -/
theorem drop_tail_preserves_query (l₁ l₂ : List WorldlineEvent) (res : ℝ)
    (hne : l₁ ≠ []) (hs : sorted_events (l₁ ++ l₂))
    (t : ℝ) (hge : ∀ e ∈ l₂, ¬ e.time < t) (s : ℝ) (hst : s < t) :
    Worldline.get_event_at_time ⟨l₁ ++ l₂, res⟩ s =
      Worldline.get_event_at_time ⟨l₁, res⟩ s := by
  by_cases hl₂ : l₂ = []
  · rw [hl₂, List.append_nil]
  · have hs₁ : sorted_events l₁ :=
      List.Pairwise.sublist (List.sublist_append_left l₁ l₂) hs
    rw [get_event_at_time_regimes ⟨l₁ ++ l₂, res⟩ s (by simp [hne]) hs,
      get_event_at_time_regimes ⟨l₁, res⟩ s hne hs₁,
      amended_three_regime, amended_three_regime]
    simp only [headD_append hne l₂]
    by_cases h1 : s ≤ (l₁.headD default_event).time
    · rw [if_pos h1, if_pos h1]
    · push_neg at h1
      rw [if_neg (not_le.mpr h1), if_neg (not_le.mpr h1)]
      have hlastcomb : (l₁ ++ l₂).getLastD default_event = l₂.getLastD default_event :=
        getLastD_append_of_ne_nil l₁ l₂ hl₂
      have hlastge : ¬ ((l₁ ++ l₂).getLastD default_event).time < s := by
        rw [hlastcomb]
        have := hge _ (getLastD_mem hl₂)
        push_neg at this ⊢
        linarith
      rw [if_neg hlastge]
      obtain ⟨b, rest₂, hEq₂⟩ := List.exists_cons_of_ne_nil hl₂
      have hppl₂ : partition_point s l₂ = 0 := by
        rw [hEq₂]
        refine partition_point_cons_ge_aux ?_ rest₂
        have := hge b (by rw [hEq₂]; simp)
        push_neg at this ⊢
        linarith
      by_cases h2 : (l₁.getLastD default_event).time < s
      · rw [if_pos h2]
        have hppcomb : partition_point s (l₁ ++ l₂) = l₁.length := by
          rw [partition_point_append_all_lt s l₁ l₂ (all_lt_of_last_lt hs₁ h2), hppl₂]
          omega
        rw [hppcomb]
        have hlen : l₁.length - 1 < l₁.length := by
          have : 0 < l₁.length := List.length_pos.mpr hne
          omega
        rw [List.getD_append _ _ _ _ hlen, getD_pred_length_eq_getLastD l₁ hne]
      · rw [if_neg h2]
        have hppcomb : partition_point s (l₁ ++ l₂) = partition_point s l₁ :=
          partition_point_append_stop s l₁ l₂ ⟨_, getLastD_mem hne, h2⟩
        rw [hppcomb]
        have hpple := partition_point_le_length s l₁
        have hppne := partition_point_pos_of_head_lt hne h1
        rw [List.getD_append _ _ _ _ (by omega)]

/-- The final append of `insert_event`: queries strictly before the insertion
time are untouched, and queries strictly after it are governed by the
inserted kind. -/
theorem insert_final_locality (D : Worldline) (t : ℝ) (k : WorldlineEventKind)
    (hDne : D.events ≠ []) (hDs : sorted_events D.events)
    (hDres : 0 < D.time_resolution) (hDall : ∀ e ∈ D.events, e.time < t) :
    (∀ s, s < t → Worldline.get_event_at_time
        ⟨D.events ++ [⟨(D.get_event_at_time t).frame,
          (D.get_event_at_time t).proper_time, k⟩], D.time_resolution⟩ s =
        D.get_event_at_time s) ∧
    (∀ s, t < s → (Worldline.get_event_at_time
        ⟨D.events ++ [⟨(D.get_event_at_time t).frame,
          (D.get_event_at_time t).proper_time, k⟩], D.time_resolution⟩ s).kind = k) := by
  have htd : (⟨(D.get_event_at_time t).frame,
      (D.get_event_at_time t).proper_time, k⟩ : WorldlineEvent).time = t := by
    have := get_event_at_time_time_of_all_lt D t hDne hDres hDall
    rw [WorldlineEvent.time] at this ⊢
    exact this
  have hlastlt : (D.events.getLastD default_event).time <
      (⟨(D.get_event_at_time t).frame,
        (D.get_event_at_time t).proper_time, k⟩ : WorldlineEvent).time := by
    rw [htd]
    exact hDall _ (getLastD_mem hDne)
  have hall' : ∀ e ∈ D.events, e.time < (⟨(D.get_event_at_time t).frame,
      (D.get_event_at_time t).proper_time, k⟩ : WorldlineEvent).time := by
    rw [htd]
    exact hDall
  constructor
  · intro s hst
    exact append_preserves_query_below D _ hDne hDs hlastlt s (by rw [htd]; linarith)
  · intro s hts
    have hs' := sorted_append_last hDs _ hall'
    rw [get_event_at_time_regimes _ s (by simp) hs', amended_three_regime]
    simp only [headD_append hDne, List.getLastD_concat]
    have hhead : (D.events.headD default_event).time < t := by
      refine hDall _ ?_
      obtain ⟨a, rest, hEq⟩ := List.exists_cons_of_ne_nil hDne
      rw [hEq]
      simp
    rw [if_neg (not_le.mpr (by linarith)), if_pos (by rw [htd]; linarith)]
    rw [get_event_at_time_offset_kind]

/-- C2 (amended): for a well-formed worldline and an insertion time strictly
after the first event's time, a successful `insert_event(t, k)` leaves every
query strictly before `t` unchanged, and every query strictly after `t`
returns an event governed by the inserted kind `k`. (For `t` at or before the
first event the whole history is discarded — see the counterexample and
claim C10.) -/
theorem claim_C2_insert_locality (W : Worldline) (hWF : W.WF) (t : ℝ)
    (k : WorldlineEventKind) (fuel : ℕ) (W' : Worldline)
    (hfirst : (W.events.headD default_event).time < t)
    (h : W.insert_event fuel t k = some W') :
    (∀ ε > 0, W'.get_event_at_time (t - ε) = W.get_event_at_time (t - ε)) ∧
    (∀ ε > 0, (W'.get_event_at_time (t + ε)).kind = k) := by
  rw [Worldline.insert_event] at h
  cases fuel with
  | zero => simp [insert_event_fuel] at h
  | succ f =>
      obtain ⟨baked, hbake, hshape⟩ := insert_event_fuel_shape h
      obtain ⟨hqb, hbWF, hbres, tl, hextb⟩ := bake_events_main f 240 (by norm_num)
        EVENT_BAKE_INTERVAL (by norm_num [EVENT_BAKE_INTERVAL, PHYS_TIME_STEP]) t
        W baked hWF hbake
      have hbne : baked.events ≠ [] := hbWF.1
      have hbhead : (baked.events.headD default_event).time < t := by
        rw [hextb, headD_append hWF.1]
        exact hfirst
      -- facts about the drained worldline, by cases on the drain decision
      cases hnb : (baked.get_neighbor_event_indices t).2 with
      | none =>
          simp only [hnb] at hshape
          have hballlt : ∀ e ∈ baked.events, e.time < t := by
            rw [get_neighbor_eval baked t hbne] at hnb
            by_cases hlast : (baked.events.getLastD default_event).time < t
            · exact all_lt_of_last_lt hbWF.2.1 hlast
            · rw [if_neg hlast] at hnb
              simp at hnb
          obtain ⟨hpast, hfut⟩ :=
            insert_final_locality baked t k hbne hbWF.2.1 hbWF.2.2 hballlt
          constructor
          · intro ε hε
            rw [hshape, hpast (t - ε) (by linarith), hqb]
          · intro ε hε
            rw [hshape]
            exact hfut (t + ε) (by linarith)
      | some ai =>
          simp only [hnb] at hshape
          have hai : ai = partition_point t baked.events := by
            rw [get_neighbor_eval baked t hbne] at hnb
            by_cases hlast : (baked.events.getLastD default_event).time < t
            · rw [if_pos hlast] at hnb
              simp at hnb
            · rw [if_neg hlast] at hnb
              by_cases hz : partition_point t baked.events = 0 <;>
                simp [hz] at hnb <;> omega
          have hppne : partition_point t baked.events ≠ 0 :=
            partition_point_pos_of_head_lt hbne hbhead
          have htne : baked.events.take ai ≠ [] := by
            rw [hai]
            exact take_ne_nil_of hppne hbne
          have hts : sorted_events (baked.events.take ai) :=
            List.Pairwise.sublist (List.take_sublist ai baked.events) hbWF.2.1
          have htall : ∀ e ∈ baked.events.take ai, e.time < t := by
            rw [hai]
            exact fun e he => mem_take_partition_point_lt t baked.events e he
          have hqtake : ∀ s, s < t →
              Worldline.get_event_at_time ⟨baked.events.take ai, baked.time_resolution⟩ s =
                baked.get_event_at_time s := by
            intro s hst
            have hsplit : baked.events.take ai ++ baked.events.drop ai = baked.events :=
              List.take_append_drop ai baked.events
            have hgedrop : ∀ e ∈ baked.events.drop ai, ¬ e.time < t := by
              rw [hai]
              exact fun e he => mem_drop_partition_point_ge t baked.events hbWF.2.1 e he
            have := drop_tail_preserves_query (baked.events.take ai)
              (baked.events.drop ai) baked.time_resolution htne
              (by rw [hsplit]; exact hbWF.2.1) t hgedrop s hst
            rw [hsplit] at this
            exact this.symm
          obtain ⟨hpast, hfut⟩ := insert_final_locality
            ⟨baked.events.take ai, baked.time_resolution⟩ t k htne hts hbWF.2.2 htall
          constructor
          · intro ε hε
            rw [hshape, hpast (t - ε) (by linarith), hqtake (t - ε) (by linarith), hqb]
          · intro ε hε
            rw [hshape]
            exact hfut (t + ε) (by linarith)

/-- Witness for C2: inserting at time 1 on the fresh at-rest worldline. -/
theorem claim_C2_witness :
    (∀ ε > 0, Worldline.get_event_at_time
        ⟨[⟨InertialFrame.default_frame, 0, .inertial⟩,
          ⟨⟨⟨0, 0, 0, 1⟩, ⟨0, 0, 0⟩⟩, 1, .inertial⟩], PHYS_TIME_STEP⟩ (1 - ε) =
      Worldline.get_event_at_time (Worldline.new InertialFrame.default_frame) (1 - ε)) ∧
    (∀ ε > 0, (Worldline.get_event_at_time
        ⟨[⟨InertialFrame.default_frame, 0, .inertial⟩,
          ⟨⟨⟨0, 0, 0, 1⟩, ⟨0, 0, 0⟩⟩, 1, .inertial⟩], PHYS_TIME_STEP⟩ (1 + ε)).kind =
      .inertial) :=
  claim_C2_insert_locality (Worldline.new InertialFrame.default_frame)
    ⟨by simp [Worldline.new], by simp [Worldline.new, sorted_events],
      by norm_num [Worldline.new, PHYS_TIME_STEP]⟩ 1 .inertial 2 _
    (by norm_num [Worldline.new, WorldlineEvent.time, InertialFrame.default_frame])
    (by norm_num [Worldline.insert_event, insert_event_fuel, bake_events_fuel,
      Worldline.new, Worldline.get_neighbor_event_indices, partition_point,
      Worldline.get_event_at_time, WorldlineEvent.get_event_at_time_offset,
      WorldlineEvent.time, InertialFrame.predict, InertialFrame.default_frame,
      WorldlineEventKind.is_inertial, lorentz_factor, Vector3.magnitude2,
      Real.sqrt_one, List.getLastD, Vector3.extend, EVENT_BAKE_INTERVAL])

/-! Material for C1's counterexample: for motion and proper acceleration along
the x-axis the boost matrix and the RK4 velocity update of
`InertialFrame::step` reduce to scalar arithmetic in the Lorentz factor. -/

/-- The scalar velocity derivative of `InertialFrame::step` for one-dimensional
motion along the x-axis: `x` is the frame's velocity at the start of the step
and `G = accel * gamma(x)`, so that `accel_4 = (G, 0, 0, G*x)`. -/
def f1d (x G v : ℝ) : ℝ := (1 - v * v) * (G - v * (G * x))

theorem c1x_boost_mulVec (x a : ℝ) (hx : x ≠ 0) :
    (lorentz_boost ⟨-x, 0, 0⟩).mulVec ((⟨a, 0, 0⟩ : Vector3).extend 0) =
      ⟨a * (1 / Real.sqrt (1 - x * x)), 0, 0,
       a * (1 / Real.sqrt (1 - x * x)) * x⟩ := by
  have hxx : ¬ (x * x = 0) := mul_self_ne_zero.mpr hx
  have hmag : (⟨-x, 0, 0⟩ : Vector3).magnitude2 = x * x := by
    simp [Vector3.magnitude2]
  simp only [lorentz_boost, lorentz_factor, hmag]
  rw [if_neg hxx]
  simp only [Matrix3.from_cols, Matrix3.transpose, Matrix3.mul_def,
    Matrix3.add_def, Matrix3.smul_def, Matrix3.sdiv, Matrix3.identity,
    Matrix3.mulVec, Matrix4.from_cols, Matrix4.mulVec, Vector3.extend,
    Vector3.mk_add_mk, Vector3.mk_smul, Vector4.mk_add_mk4, Vector4.mk_smul4,
    Vector4.mk_neg4, Vector3.mk_neg]
  apply Vector4.ext <;> field_simp

theorem c1x_deriv_1d (p : Vector4) (x a : ℝ) (hx : x ≠ 0) (t v : ℝ) :
    step_velocity_derivative ⟨p, ⟨x, 0, 0⟩⟩ ⟨a, 0, 0⟩ t ⟨v, 0, 0⟩ =
      ⟨f1d x (a * (1 / Real.sqrt (1 - x * x))) v, 0, 0⟩ := by
  have hneg : -(⟨x, 0, 0⟩ : Vector3) = ⟨-x, 0, 0⟩ := by
    simp
  simp only [step_velocity_derivative]
  rw [hneg, c1x_boost_mulVec x a hx]
  simp only [Vector4.truncate, f1d, Vector3.magnitude2, Vector3.mk_smul,
    Vector3.mk_sub_mk]
  apply Vector3.ext <;> ring

theorem c1x_rk4_axis (x0 t0 h : ℝ) (F : ℝ → Vector3 → Vector3) (f : ℝ → ℝ)
    (hF : ∀ t v, F t ⟨v, 0, 0⟩ = ⟨f v, 0, 0⟩) :
    runge_kutta_step (⟨x0, 0, 0⟩ : Vector3) t0 h F =
      ⟨runge_kutta_step x0 t0 h (fun _ v => f v), 0, 0⟩ := by
  simp only [runge_kutta_step, hF, Vector3.mk_smul, Vector3.mk_add_mk,
    mul_zero, add_zero, smul_eq_mul]

/-- `step_raw_velocity` along the x-axis is the scalar RK4 step of `f1d`. -/
theorem c1x_raw_1d (p : Vector4) (x h a : ℝ) (hx : x ≠ 0) :
    step_raw_velocity ⟨p, ⟨x, 0, 0⟩⟩ h ⟨a, 0, 0⟩ =
      ⟨runge_kutta_step x 0 h
        (fun _ v => f1d x (a * (1 / Real.sqrt (1 - x * x))) v), 0, 0⟩ := by
  rw [step_raw_velocity]
  exact c1x_rk4_axis x 0 h _ _ (fun t v => c1x_deriv_1d p x a hx t v)

/-- The first bake chunk: an RK4 half-step from rest under unit x-acceleration
(the boost is the identity at zero velocity, so the result is rational). -/
theorem c1x_raw_half :
    step_raw_velocity ⟨⟨0, 0, 0, 0⟩, ⟨0, 0, 0⟩⟩ (1 / 2) ⟨1, 0, 0⟩ =
      ⟨123969045 / 268435456, 0, 0⟩ := by
  rw [step_raw_velocity, step_velocity_derivative]
  rw [show (⟨⟨0, 0, 0, 0⟩, ⟨0, 0, 0⟩⟩ : InertialFrame).velocity =
    (⟨0, 0, 0⟩ : Vector3) from rfl, c4_boost_zero]
  simp [runge_kutta_step, Matrix4.identity, Matrix4.mulVec, Vector3.extend,
    Vector4.truncate, Vector3.magnitude2]
  norm_num

/-- The direct query's integration: a single RK4 step of size 1 from rest. -/
theorem c1x_raw_full :
    step_raw_velocity ⟨⟨0, 0, 0, 0⟩, ⟨0, 0, 0⟩⟩ 1 ⟨1, 0, 0⟩ =
      ⟨6117 / 8192, 0, 0⟩ := by
  rw [step_raw_velocity, step_velocity_derivative]
  rw [show (⟨⟨0, 0, 0, 0⟩, ⟨0, 0, 0⟩⟩ : InertialFrame).velocity =
    (⟨0, 0, 0⟩ : Vector3) from rfl, c4_boost_zero]
  simp [runge_kutta_step, Matrix4.identity, Matrix4.mulVec, Vector3.extend,
    Vector4.truncate, Vector3.magnitude2]
  norm_num

theorem c1x_v1_eval :
    ((⟨⟨0, 0, 0, 0⟩, ⟨0, 0, 0⟩⟩ : InertialFrame).step (1 / 2)
        ⟨1, 0, 0⟩).1.velocity = ⟨123969045 / 268435456, 0, 0⟩ := by
  rw [step_velocity_eq, c1x_raw_half,
    if_neg (by norm_num [Vector3.magnitude2, MAX_SPEED])]

theorem c1x_F1_velocity :
    ((⟨⟨0, 0, 0, 0⟩, ⟨0, 0, 0⟩⟩ : InertialFrame).step 1
        ⟨1, 0, 0⟩).1.velocity = ⟨6117 / 8192, 0, 0⟩ := by
  rw [step_velocity_eq, c1x_raw_full,
    if_neg (by norm_num [Vector3.magnitude2, MAX_SPEED])]

theorem c1x_sqrt_lb :
    (0.886 : ℝ) <
      Real.sqrt (1 - (123969045 / 268435456 : ℝ) * (123969045 / 268435456)) := by
  have hs := Real.sq_sqrt (show (0 : ℝ) ≤
    1 - (123969045 / 268435456 : ℝ) * (123969045 / 268435456) by norm_num)
  have hnn := Real.sqrt_nonneg
    (1 - (123969045 / 268435456 : ℝ) * (123969045 / 268435456))
  nlinarith [hs, hnn]

theorem c1x_sqrt_ub :
    Real.sqrt (1 - (123969045 / 268435456 : ℝ) * (123969045 / 268435456)) <
      (0.888 : ℝ) := by
  have hs := Real.sq_sqrt (show (0 : ℝ) ≤
    1 - (123969045 / 268435456 : ℝ) * (123969045 / 268435456) by norm_num)
  have hnn := Real.sqrt_nonneg
    (1 - (123969045 / 268435456 : ℝ) * (123969045 / 268435456))
  nlinarith [hs, hnn]

set_option maxHeartbeats 3200000 in
/-- Interval-arithmetic bounds for the second bake chunk: the scalar RK4
half-step of `f1d` from the checkpoint velocity, for any Lorentz factor in
the interval established by `c1x_sqrt_lb` and `c1x_sqrt_ub`. The result lies
well below the direct query's velocity 6117/8192 ≈ 0.7467. -/
theorem c1x_scalar_bound (g : ℝ) (hg1 : (1.126 : ℝ) < g) (hg2 : g < (1.129 : ℝ)) :
    (0.71 : ℝ) < runge_kutta_step (123969045 / 268435456 : ℝ) 0 (1 / 2)
        (fun _ v => f1d (123969045 / 268435456) g v) ∧
      runge_kutta_step (123969045 / 268435456 : ℝ) 0 (1 / 2)
        (fun _ v => f1d (123969045 / 268435456) g v) < (0.73 : ℝ) := by
  simp only [runge_kutta_step, smul_eq_mul]
  set q1 := f1d (123969045 / 268435456 : ℝ) g (123969045 / 268435456) with hq1
  set u2 := (123969045 / 268435456 : ℝ) + 1 / 2 / 2 * q1 with hu2
  set q2 := f1d (123969045 / 268435456 : ℝ) g u2 with hq2
  set u3 := (123969045 / 268435456 : ℝ) + 1 / 2 / 2 * q2 with hu3
  set q3 := f1d (123969045 / 268435456 : ℝ) g u3 with hq3
  set u4 := (123969045 / 268435456 : ℝ) + 1 / 2 * q3 with hu4
  set q4 := f1d (123969045 / 268435456 : ℝ) g u4 with hq4
  clear_value q1 u2 q2 u3 q3 u4 q4
  have hq1l : (0.6969 : ℝ) < q1 := by
    rw [hq1, f1d]; nlinarith [hg1, hg2]
  have hq1u : q1 < (0.69879 : ℝ) := by
    rw [hq1, f1d]; nlinarith [hg1, hg2]
  have hu2l : (0.63603 : ℝ) < u2 := by rw [hu2]; linarith
  have hu2u : u2 < (0.63653 : ℝ) := by rw [hu2]; linarith
  have hm2l : (0.59481 : ℝ) < 1 - u2 * u2 := by nlinarith [hu2l, hu2u]
  have hm2u : 1 - u2 * u2 < (0.59548 : ℝ) := by nlinarith [hu2l, hu2u]
  have hp2l : (0.79498 : ℝ) <
      g - u2 * (g * (123969045 / 268435456 : ℝ)) := by
    nlinarith [hg1, hg2, hu2l, hu2u]
  have hp2u : g - u2 * (g * (123969045 / 268435456 : ℝ)) < (0.79739 : ℝ) := by
    nlinarith [hg1, hg2, hu2l, hu2u]
  have hq2l : (0.47285 : ℝ) < q2 := by
    rw [hq2, f1d]; nlinarith [hm2l, hm2u, hp2l, hp2u]
  have hq2u : q2 < (0.47484 : ℝ) := by
    rw [hq2, f1d]; nlinarith [hm2l, hm2u, hp2l, hp2u]
  have hu3l : (0.58002 : ℝ) < u3 := by rw [hu3]; linarith
  have hu3u : u3 < (0.58055 : ℝ) := by rw [hu3]; linarith
  have hm3l : (0.66295 : ℝ) < 1 - u3 * u3 := by nlinarith [hu3l, hu3u]
  have hm3u : 1 - u3 * u3 < (0.66359 : ℝ) := by nlinarith [hu3l, hu3u]
  have hp3l : (0.82409 : ℝ) <
      g - u3 * (g * (123969045 / 268435456 : ℝ)) := by
    nlinarith [hg1, hg2, hu3l, hu3u]
  have hp3u : g - u3 * (g * (123969045 / 268435456 : ℝ)) < (0.8266 : ℝ) := by
    nlinarith [hg1, hg2, hu3l, hu3u]
  have hq3l : (0.54632 : ℝ) < q3 := by
    rw [hq3, f1d]; nlinarith [hm3l, hm3u, hp3l, hp3u]
  have hq3u : q3 < (0.54854 : ℝ) := by
    rw [hq3, f1d]; nlinarith [hm3l, hm3u, hp3l, hp3u]
  have hu4l : (0.73497 : ℝ) < u4 := by rw [hu4]; linarith
  have hu4u : u4 < (0.73611 : ℝ) := by rw [hu4]; linarith
  have hm4l : (0.45813 : ℝ) < 1 - u4 * u4 := by nlinarith [hu4l, hu4u]
  have hm4u : 1 - u4 * u4 < (0.45983 : ℝ) := by nlinarith [hu4l, hu4u]
  have hp4l : (0.7432 : ℝ) <
      g - u4 * (g * (123969045 / 268435456 : ℝ)) := by
    nlinarith [hg1, hg2, hu4l, hu4u]
  have hp4u : g - u4 * (g * (123969045 / 268435456 : ℝ)) < (0.7458 : ℝ) := by
    nlinarith [hg1, hg2, hu4l, hu4u]
  have hq4l : (0.34047 : ℝ) < q4 := by
    rw [hq4, f1d]; nlinarith [hm4l, hm4u, hp4l, hp4u]
  have hq4u : q4 < (0.34296 : ℝ) := by
    rw [hq4, f1d]; nlinarith [hm4l, hm4u, hp4l, hp4u]
  constructor
  · linarith
  · linarith

/-- Querying the single-event accelerating worldline at the incommensurate
bake checkpoint time 1/2 (time resolution 1): one RK4 half-step. -/
theorem c1x_hC :
    Worldline.get_event_at_time
        ⟨[⟨⟨⟨0, 0, 0, 0⟩, ⟨0, 0, 0⟩⟩, 0, .acceleration ⟨1, 0, 0⟩⟩], 1⟩ (1 / 2) =
      ⟨((⟨⟨0, 0, 0, 0⟩, ⟨0, 0, 0⟩⟩ : InertialFrame).step (1 / 2) ⟨1, 0, 0⟩).1,
       0 + ((⟨⟨0, 0, 0, 0⟩, ⟨0, 0, 0⟩⟩ : InertialFrame).step (1 / 2) ⟨1, 0, 0⟩).2,
       .acceleration ⟨1, 0, 0⟩⟩ := by
  have hsz : accel_step_sizes (1 / 2) 1 = [1 / 2] := by
    norm_num [accel_step_sizes, rem_euclid]
  have hnb : Worldline.get_neighbor_event_indices
      ⟨[⟨⟨⟨0, 0, 0, 0⟩, ⟨0, 0, 0⟩⟩, 0, .acceleration ⟨1, 0, 0⟩⟩], 1⟩ (1 / 2) =
      (some 0, none) := by
    norm_num [Worldline.get_neighbor_event_indices, WorldlineEvent.time,
      List.getLastD]
  simp only [Worldline.get_event_at_time, hnb, List.getD,
    WorldlineEvent.get_event_at_time_offset, WorldlineEvent.time]
  norm_num [hsz]
  simp only [run_accel_steps]
  norm_num

/-- Evaluation of `bake_events` with the incommensurate interval 1/480
(bake step 1/2 at resolution 1) up to coordinate time 9/10 on the
single-event accelerating worldline: exactly one checkpoint is inserted,
at coordinate time 1/2. -/
theorem c1x_hbake :
    bake_events_fuel 6 (1 / 480) (9 / 10)
        ⟨[⟨⟨⟨0, 0, 0, 0⟩, ⟨0, 0, 0⟩⟩, 0, .acceleration ⟨1, 0, 0⟩⟩], 1⟩ =
      some ⟨[⟨⟨⟨0, 0, 0, 0⟩, ⟨0, 0, 0⟩⟩, 0, .acceleration ⟨1, 0, 0⟩⟩,
             ⟨((⟨⟨0, 0, 0, 0⟩, ⟨0, 0, 0⟩⟩ : InertialFrame).step (1 / 2)
                 ⟨1, 0, 0⟩).1,
              0 + ((⟨⟨0, 0, 0, 0⟩, ⟨0, 0, 0⟩⟩ : InertialFrame).step (1 / 2)
                 ⟨1, 0, 0⟩).2,
              .acceleration ⟨1, 0, 0⟩⟩], 1⟩ := by
  have hnb910 : Worldline.get_neighbor_event_indices
      ⟨[⟨⟨⟨0, 0, 0, 0⟩, ⟨0, 0, 0⟩⟩, 0, .acceleration ⟨1, 0, 0⟩⟩], 1⟩ (9 / 10) =
      (some 0, none) := by
    norm_num [Worldline.get_neighbor_event_indices, WorldlineEvent.time,
      List.getLastD]
  have hnbhalf : Worldline.get_neighbor_event_indices
      ⟨[⟨⟨⟨0, 0, 0, 0⟩, ⟨0, 0, 0⟩⟩, 0, .acceleration ⟨1, 0, 0⟩⟩], 1⟩ (1 / 2) =
      (some 0, none) := by
    norm_num [Worldline.get_neighbor_event_indices, WorldlineEvent.time,
      List.getLastD]
  norm_num [bake_events_fuel, bake_loop_fuel, insert_event_fuel, hnb910,
    hnbhalf, c1x_hC, WorldlineEvent.time, WorldlineEventKind.is_inertial,
    List.getD, PHYS_TIME_STEP, Option.bind_eq_bind, Option.some_bind]

/-- Querying the baked worldline at time 1: bracketed by the checkpoint at
coordinate time 1/2, from which one RK4 half-step remains. -/
theorem c1x_checkpoint_query (F : InertialFrame) (pt : ℝ)
    (hw : F.position.w = 1 / 2) :
    Worldline.get_event_at_time
        ⟨[⟨⟨⟨0, 0, 0, 0⟩, ⟨0, 0, 0⟩⟩, 0, .acceleration ⟨1, 0, 0⟩⟩,
          ⟨F, pt, .acceleration ⟨1, 0, 0⟩⟩], 1⟩ 1 =
      ⟨(F.step (1 / 2) ⟨1, 0, 0⟩).1, pt + (F.step (1 / 2) ⟨1, 0, 0⟩).2,
       .acceleration ⟨1, 0, 0⟩⟩ := by
  have hsz : accel_step_sizes (1 - 1 / 2) 1 = [1 / 2] := by
    norm_num [accel_step_sizes, rem_euclid]
  have hnb : Worldline.get_neighbor_event_indices
      ⟨[⟨⟨⟨0, 0, 0, 0⟩, ⟨0, 0, 0⟩⟩, 0, .acceleration ⟨1, 0, 0⟩⟩,
        ⟨F, pt, .acceleration ⟨1, 0, 0⟩⟩], 1⟩ 1 = (some 1, none) := by
    norm_num [Worldline.get_neighbor_event_indices, WorldlineEvent.time, hw,
      List.getLastD]
  simp only [Worldline.get_event_at_time, hnb, List.getD_cons_zero,
    List.getD_cons_succ, WorldlineEvent.get_event_at_time_offset,
    WorldlineEvent.time, hw, hsz]
  simp only [run_accel_steps]

/-- The direct (unbaked) query at time 1: one full RK4 step of size 1,
followed by a zero-length remainder step which is the identity. -/
theorem c1x_direct :
    (Worldline.get_event_at_time
        ⟨[⟨⟨⟨0, 0, 0, 0⟩, ⟨0, 0, 0⟩⟩, 0, .acceleration ⟨1, 0, 0⟩⟩], 1⟩
        1).frame.velocity.x = 6117 / 8192 := by
  have hsz : accel_step_sizes 1 1 = [1, 0] := by
    norm_num [accel_step_sizes, rem_euclid]
  have hcl : (((⟨⟨0, 0, 0, 0⟩, ⟨0, 0, 0⟩⟩ : InertialFrame).step 1
      ⟨1, 0, 0⟩).1.velocity).magnitude2 ≤ MAX_SPEED * MAX_SPEED := by
    rw [c1x_F1_velocity]
    norm_num [Vector3.magnitude2, MAX_SPEED]
  have hnb : Worldline.get_neighbor_event_indices
      ⟨[⟨⟨⟨0, 0, 0, 0⟩, ⟨0, 0, 0⟩⟩, 0, .acceleration ⟨1, 0, 0⟩⟩], 1⟩ 1 =
      (some 0, none) := by
    norm_num [Worldline.get_neighbor_event_indices, WorldlineEvent.time,
      List.getLastD]
  simp only [Worldline.get_event_at_time, hnb, List.getD,
    WorldlineEvent.get_event_at_time_offset, WorldlineEvent.time]
  norm_num [hsz]
  simp only [run_accel_steps, step_zero_of_clamped _ _ hcl]
  rw [c1x_F1_velocity]

/-- Combined bound on the second chunk of the baked trajectory: starting from
any frame with the checkpoint velocity, the RK4 half-step keeps the x-velocity
in (0.71, 0.73) and the clamp does not fire. -/
theorem c1x_second_step (p : Vector4) :
    (0.71 : ℝ) < (((⟨p, ⟨123969045 / 268435456, 0, 0⟩⟩ : InertialFrame).step
        (1 / 2) ⟨1, 0, 0⟩).1.velocity).x ∧
      (((⟨p, ⟨123969045 / 268435456, 0, 0⟩⟩ : InertialFrame).step
        (1 / 2) ⟨1, 0, 0⟩).1.velocity).x < (0.73 : ℝ) := by
  have hSl := c1x_sqrt_lb
  have hSu := c1x_sqrt_ub
  have hSpos : (0 : ℝ) < Real.sqrt
      (1 - (123969045 / 268435456 : ℝ) * (123969045 / 268435456)) :=
    lt_trans (by norm_num) hSl
  have hginv : Real.sqrt
        (1 - (123969045 / 268435456 : ℝ) * (123969045 / 268435456)) *
      (1 / Real.sqrt
        (1 - (123969045 / 268435456 : ℝ) * (123969045 / 268435456))) = 1 := by
    field_simp
  have hnn : (0 : ℝ) ≤ 1 / Real.sqrt
      (1 - (123969045 / 268435456 : ℝ) * (123969045 / 268435456)) := by
    positivity
  have hg1 : (1.126 : ℝ) < 1 * (1 / Real.sqrt
      (1 - (123969045 / 268435456 : ℝ) * (123969045 / 268435456))) := by
    rw [one_mul]
    nlinarith [hginv, hSu, hSpos, hnn]
  have hg2 : 1 * (1 / Real.sqrt
      (1 - (123969045 / 268435456 : ℝ) * (123969045 / 268435456))) <
      (1.129 : ℝ) := by
    rw [one_mul]
    nlinarith [hginv, hSl, hSpos, hnn]
  obtain ⟨hbl, hbu⟩ := c1x_scalar_bound _ hg1 hg2
  have hraw := c1x_raw_1d p (123969045 / 268435456 : ℝ) (1 / 2) 1
    (by norm_num)
  rw [step_velocity_eq, hraw]
  have hcl : ¬ (((⟨runge_kutta_step (123969045 / 268435456 : ℝ) 0 (1 / 2)
      (fun _ v => f1d (123969045 / 268435456)
        (1 * (1 / Real.sqrt (1 - (123969045 / 268435456 : ℝ) *
          (123969045 / 268435456)))) v), 0, 0⟩ : Vector3)).magnitude2 >
      MAX_SPEED * MAX_SPEED) := by
    simp only [Vector3.magnitude2]
    push_neg
    rw [MAX_SPEED]
    nlinarith [hbl, hbu]
  rw [if_neg hcl]
  exact ⟨hbl, hbu⟩

/-- C1 counterexample: with `EVENT_BAKE_INTERVAL` set to 1/480 (bake step 1/2
at time resolution 1, incommensurate with the worldline's RK4 step grid),
baking the single-event accelerating worldline up to time 9/10 inserts a
checkpoint at coordinate time 1/2, and the query at time 1 afterwards
integrates in two half-steps instead of one full step: its x-velocity lands
in (0.71, 0.73), whereas before baking the same query returns exactly
6117/8192 ≈ 0.7467. Baking therefore changes `get_event_at_time`. -/
theorem claim_C1_counterexample :
    (bake_events_fuel 6 (1 / 480) (9 / 10)
        ⟨[⟨⟨⟨0, 0, 0, 0⟩, ⟨0, 0, 0⟩⟩, 0, .acceleration ⟨1, 0, 0⟩⟩], 1⟩).map
      (fun w => (w.get_event_at_time 1).frame.velocity.x) ≠
      some ((Worldline.get_event_at_time
        ⟨[⟨⟨⟨0, 0, 0, 0⟩, ⟨0, 0, 0⟩⟩, 0, .acceleration ⟨1, 0, 0⟩⟩], 1⟩
        1).frame.velocity.x) := by
  rw [c1x_hbake]
  simp only [Option.map_some', ne_eq, Option.some.injEq]
  rw [c1x_checkpoint_query _ _
    (by rw [step_position_w]; show (0 : ℝ) + 1 / 2 = 1 / 2; norm_num),
    c1x_direct]
  intro h
  have h' : ((((⟨⟨0, 0, 0, 0⟩, ⟨0, 0, 0⟩⟩ : InertialFrame).step (1 / 2)
      ⟨1, 0, 0⟩).1.step (1 / 2) ⟨1, 0, 0⟩).1.velocity).x = 6117 / 8192 := h
  have hCeta : ((⟨⟨0, 0, 0, 0⟩, ⟨0, 0, 0⟩⟩ : InertialFrame).step (1 / 2)
      ⟨1, 0, 0⟩).1 =
      ⟨((⟨⟨0, 0, 0, 0⟩, ⟨0, 0, 0⟩⟩ : InertialFrame).step (1 / 2)
        ⟨1, 0, 0⟩).1.position, ⟨123969045 / 268435456, 0, 0⟩⟩ := by
    rw [← c1x_v1_eval]
  rw [hCeta] at h'
  obtain ⟨hl, hu⟩ := c1x_second_step
    (((⟨⟨0, 0, 0, 0⟩, ⟨0, 0, 0⟩⟩ : InertialFrame).step (1 / 2)
      ⟨1, 0, 0⟩).1.position)
  rw [h'] at hu
  norm_num at hu

/-- C2 counterexample: the claim as stated fails when the insert time is at or
before the first event's coordinate time. On a worldline whose single seed
event sits at rest at spatial position x = 5 (coordinate time 0), inserting an
event at t = -1 drains the whole deque and pushes a default event at the
spatial origin, so the query at t - ε = -2 (ε = 1) afterwards extrapolates the
default frame (x = 0 at coordinate time -2) where before the insert it
extrapolated the seed frame (x = 5): the past is retroactively corrupted. -/
theorem claim_C2_counterexample :
    (Worldline.insert_event 3 ⟨[⟨⟨⟨5, 0, 0, 0⟩, ⟨0, 0, 0⟩⟩, 0, .inertial⟩], 1⟩
        (-1) .inertial).map (fun w => w.get_event_at_time (-2)) ≠
      some (Worldline.get_event_at_time
        ⟨[⟨⟨⟨5, 0, 0, 0⟩, ⟨0, 0, 0⟩⟩, 0, .inertial⟩], 1⟩ (-2)) := by
  have hins : Worldline.insert_event 3
      ⟨[⟨⟨⟨5, 0, 0, 0⟩, ⟨0, 0, 0⟩⟩, 0, .inertial⟩], 1⟩ (-1) .inertial =
      some ⟨[⟨⟨⟨0, 0, 0, 0⟩, ⟨0, 0, 0⟩⟩, 0, .inertial⟩], 1⟩ := by
    norm_num [Worldline.insert_event, insert_event_fuel, bake_events_fuel,
      Worldline.get_neighbor_event_indices, partition_point,
      Worldline.get_event_at_time, WorldlineEvent.time, default_event,
      InertialFrame.default_frame, WorldlineEventKind.is_inertial,
      List.getLastD, EVENT_BAKE_INTERVAL]
  rw [hins]
  intro h
  simp only [Option.map_some', Option.some.injEq] at h
  have hx := congrArg (fun e => e.frame.position.x) h
  norm_num [Worldline.get_event_at_time, Worldline.get_neighbor_event_indices,
    partition_point, WorldlineEvent.get_event_at_time_offset,
    WorldlineEvent.time, InertialFrame.predict, List.getLastD, Vector3.extend,
    default_event, InertialFrame.default_frame] at hx

end

end SR
